import Mathlib

/-!
# NeuroStore verification

A shallow embedding of the core algorithms of the decentralized storage
service: the client-side erasure/encryption pipeline, the Merkle-style
manifest root, the protocol signature-verification helpers, the node's
encrypted block store and audit replay guard, the gateway proof-of-spacetime
challenge state machine, the gateway request multiplexer, and the sentinel
reputation engine's redundancy multiplier.

External cryptographic crates (sha2, argon2, aes-gcm, reed-solomon-erasure,
libp2p identity) are modelled as abstract function parameters collected in
`Prims` / `SigPrims`; the repository's own logic is translated directly from
the Rust source.  Machine integers that can saturate (`u64` accounting in
the block store) are modelled as `Nat` with explicit saturation at
`2 ^ 64 - 1`; floating-point arithmetic in the sentinel is modelled over `ℚ`
with Rust's `clamp` semantics.
-/

namespace NeuroStore

/-- Abstract cryptographic primitives used by the client pipeline and the
node block store.  Each field stands for a function supplied by an external
crate; the facts the proofs need about them are taken as explicit
hypotheses at the relevant call sites. -/
structure Prims where
  /-- Raw SHA-256 digest of a byte string (`sha2`). -/
  shaRaw : List Nat → List Nat
  /-- Hex-encoded SHA-256 digest, as produced by `sha256_hex`. -/
  sha256hex : List Nat → String
  /-- UTF-8 bytes of a string. -/
  strBytes : String → List Nat
  /-- Hex decoding with `unwrap_or_default` semantics (`hex::decode`). -/
  hexDecode : String → List Nat
  /-- Argon2 key derivation: password and salt to a 32-byte key. -/
  deriveKey : String → String → List Nat
  /-- Whether `SaltString::from_b64` succeeds on the given salt string. -/
  saltDecodeOk : String → Bool
  /-- AES-256-GCM encryption: key, 12-byte nonce, plaintext to ciphertext. -/
  aeadEnc : List Nat → List Nat → List Nat → Option (List Nat)
  /-- AES-256-GCM decryption: key, nonce, ciphertext to plaintext. -/
  aeadDec : List Nat → List Nat → List Nat → Option (List Nat)
  /-- Reed-Solomon encoding (`galois_8`): data/parity counts and the padded
  data shards; returns the full shard vector (data followed by parity). -/
  rsEncode : Nat → Nat → List (List Nat) → List (List Nat)
  /-- Reed-Solomon reconstruction: completes a partial shard vector in
  place, returning the mutated vector, or `none` on decode failure. -/
  rsReconstruct : Nat → Nat → List (Option (List Nat)) → Option (List (Option (List Nat)))

/-- A concrete executable instantiation of `Prims` used to evaluate the
theorems on closed inputs.  The stand-ins satisfy the crate contracts on
the inputs used by the witnesses (round-tripping cipher, key-checking
decryption, shape-preserving erasure coder). -/
def toyPrims : Prims where
  shaRaw l := 7 :: l
  sha256hex l := toString l
  strBytes s := s.data.map Char.toNat
  hexDecode s := s.data.map Char.toNat
  deriveKey pw salt := (pw.data.map Char.toNat) ++ [35] ++ (salt.data.map Char.toNat)
  saltDecodeOk _ := true
  aeadEnc key _nonce pt := some (key.length :: (key ++ pt))
  aeadDec key _nonce ct :=
    match ct with
    | [] => none
    | n :: rest =>
      if n = key.length ∧ rest.take n = key then some (rest.drop n) else none
  rsEncode _d p data :=
    data ++ (List.range p).map (fun _ => List.replicate (data.headD []).length 0)
  rsReconstruct _d _p v := if v.all Option.isSome then some v else none

/-! ## Sentinel: RL-guided redundancy multiplier (`sentinel/src/main.rs`) -/

/-- Rust `f64::clamp` on non-NaN inputs, modelled over `ℚ`. -/
def rustClamp (x lo hi : ℚ) : ℚ :=
  if x < lo then lo else if x > hi then hi else x

/-- `compute_rl_redundancy` from `sentinel/src/main.rs`: quarantined or
evicted nodes are drained at `0.5`; otherwise the multiplier is
`1 + heat_bonus + rep_bonus` clamped to `[1, 2.5]`. -/
def compute_rl_redundancy (heatAccumulator reputation : ℚ) (action : String) : ℚ :=
  if action == "quarantine" || action == "evict" then 1 / 2
  else
    let heatBonus := rustClamp (heatAccumulator / 100) 0 (3 / 2)
    let repBonus := (reputation / 100) * (1 / 2)
    rustClamp (1 + heatBonus + repBonus) 1 (5 / 2)

/-! ## Client SDK: manifest root (`client-sdk/src/lib.rs`) -/

/-- One level of the pairwise hash: hash consecutive pairs, duplicating the
last element of an odd-length level. -/
def merkleLevel (P : Prims) : List (List Nat) → List (List Nat)
  | [] => []
  | [x] => [P.shaRaw (x ++ x)]
  | x :: y :: rest => P.shaRaw (x ++ y) :: merkleLevel P rest

theorem merkleLevel_length (P : Prims) : ∀ l, (merkleLevel P l).length = (l.length + 1) / 2
  | [] => rfl
  | [_] => by simp [merkleLevel]
  | _ :: _ :: rest => by
      simp only [merkleLevel, List.length_cons, merkleLevel_length P rest]
      omega

/-- The `while level.len() > 1` loop of `merkle_root`, with explicit fuel
so that it reduces by iota; `level.length` iterations always suffice since
each level at least halves. -/
def merkleLoopAux (P : Prims) : Nat → List (List Nat) → String
  | 0, level => P.sha256hex (level.headD [])
  | fuel + 1, level =>
    if level.length ≤ 1 then P.sha256hex (level.headD [])
    else merkleLoopAux P fuel (merkleLevel P level)

/-- The `while level.len() > 1` loop of `merkle_root`. -/
def merkleLoop (P : Prims) (level : List (List Nat)) : String :=
  merkleLoopAux P level.length level

/-- `merkle_root` from `client-sdk/src/lib.rs`. -/
def merkle_root (P : Prims) (items : List String) : String :=
  if items.isEmpty then P.sha256hex []
  else merkleLoop P (items.map P.strBytes)

/-- A produced shard (client SDK `Shard`). -/
structure Shard where
  chunkIndex : Nat
  shardIndex : Nat
  cid : String
  bytes : List Nat
  payloadLen : Nat
  dataShards : Nat
  parityShards : Nat
deriving DecidableEq, Repr

/-- `manifest_root_from_shards`: fold the ordered shard CIDs. -/
def manifest_root_from_shards (P : Prims) (shards : List Shard) : String :=
  merkle_root P (shards.map Shard.cid)

/-! ## Claim theorems: C9 and C8 -/

theorem rustClamp_mem (x lo hi : ℚ) (h : lo ≤ hi) :
    lo ≤ rustClamp x lo hi ∧ rustClamp x lo hi ≤ hi := by
  unfold rustClamp
  split
  · exact ⟨le_refl lo, h⟩
  · split
    · exact ⟨h, le_refl hi⟩
    · constructor <;> linarith [le_of_not_lt (by assumption : ¬ x < lo),
        le_of_not_lt (by assumption : ¬ x > hi)]

/-- C9 (amended): for every heat and reputation value, and every decided
action other than `quarantine` and `evict`, the recommended redundancy
multiplier lies in `[1, 2.5]`.  (For `quarantine`/`evict` the code returns
`0.5`, refuting the unrestricted claim; see the counterexample.) -/
theorem rl_redundancy_bounds (heat reputation : ℚ) (action : String)
    (hq : action ≠ "quarantine") (he : action ≠ "evict") :
    1 ≤ compute_rl_redundancy heat reputation action ∧
      compute_rl_redundancy heat reputation action ≤ 5 / 2 := by
  have hcond : (action == "quarantine" || action == "evict") = false := by
    simp [hq, he]
  unfold compute_rl_redundancy
  rw [hcond]
  simp only [Bool.false_eq_true, if_false]
  exact rustClamp_mem _ 1 (5 / 2) (by norm_num)

/-- C9 witness: the bounds hold at a concrete input. -/
theorem rl_redundancy_bounds_witness :
    1 ≤ compute_rl_redundancy 120 80 "hold" ∧
      compute_rl_redundancy 120 80 "hold" ≤ 5 / 2 :=
  rl_redundancy_bounds 120 80 "hold" (by decide) (by decide)

/-- C9 counterexample: for the decided action `quarantine` the multiplier is
`0.5`, outside `[1, 2.5]`, so the claim as stated over every decided action
is false. -/
theorem rl_redundancy_claim_false :
    ¬ (1 ≤ compute_rl_redundancy 0 0 "quarantine" ∧
        compute_rl_redundancy 0 0 "quarantine" ≤ 5 / 2) := by
  intro h
  have : compute_rl_redundancy 0 0 "quarantine" = 1 / 2 := by
    unfold compute_rl_redundancy
    norm_num
  rw [this] at h
  norm_num at h

/-- C8: the manifest root is `merkle_root` applied to the ordered shard CID
sequence, hence a function of that sequence alone: two shard lists with
identical CIDs in identical order yield equal roots. -/
theorem manifest_root_depends_only_on_cids (P : Prims) (s₁ s₂ : List Shard)
    (h : s₁.map Shard.cid = s₂.map Shard.cid) :
    manifest_root_from_shards P s₁ = merkle_root P (s₁.map Shard.cid) ∧
      manifest_root_from_shards P s₁ = manifest_root_from_shards P s₂ := by
  constructor
  · rfl
  · unfold manifest_root_from_shards
    rw [h]

/-- C8 witness: two concrete shard lists, differing in every field except
the CID sequence, have equal manifest roots. -/
theorem manifest_root_depends_only_on_cids_witness :
    manifest_root_from_shards toyPrims
        [⟨0, 0, "a", [1], 3, 2, 1⟩, ⟨0, 1, "b", [2], 3, 2, 1⟩] =
      merkle_root toyPrims ["a", "b"] ∧
    manifest_root_from_shards toyPrims
        [⟨0, 0, "a", [1], 3, 2, 1⟩, ⟨0, 1, "b", [2], 3, 2, 1⟩] =
      manifest_root_from_shards toyPrims
        [⟨5, 7, "a", [9], 11, 4, 2⟩, ⟨6, 8, "b", [10], 12, 4, 2⟩] :=
  manifest_root_depends_only_on_cids toyPrims _ _ (by rfl)

/-! ## Protocol: signature-verified responses (`protocol/src/lib.rs`) -/

/-- Abstract libp2p identity primitives.  Public keys and peer ids are
abstract handles (`Nat`); payloads are the formatted strings the code
signs (`format!(..).into_bytes()` is modelled by keeping the string). -/
structure SigPrims where
  /-- `PublicKey::try_decode_protobuf`. -/
  decodePk : List Nat → Option Nat
  /-- `PeerId::from_public_key`. -/
  peerIdOf : Nat → Nat
  /-- `PublicKey::verify(payload, signature)`. -/
  pkVerify : Nat → String → List Nat → Bool

/-- `StoreChunkResponse::receipt_payload`. -/
def receipt_payload (cid : String) (len tsMs : Nat) : String :=
  "store:" ++ cid ++ ":" ++ toString len ++ ":" ++ toString tsMs

/-- `RetrieveChunkResponse::proof_payload`. -/
def proof_payload (cid : String) (len tsMs : Nat) : String :=
  "retrieve:" ++ cid ++ ":" ++ toString len ++ ":" ++ toString tsMs

/-- `AuditChunkResponse::audit_payload`. -/
def audit_payload (cid challengeHex nonceHex responseHash : String) (tsMs : Nat) : String :=
  "audit:" ++ cid ++ ":" ++ challengeHex ++ ":" ++ nonceHex ++ ":" ++
    responseHash ++ ":" ++ toString tsMs

/-- `verify_signature` from `protocol/src/lib.rs`: decode the public key,
check the derived peer id, then verify the signature over the payload. -/
def verify_signature (SP : SigPrims) (expectedPeerId : Nat)
    (publicKeyBytes signature : List Nat) (payload : String) : Bool :=
  match SP.decodePk publicKeyBytes with
  | none => false
  | some pk =>
    if SP.peerIdOf pk ≠ expectedPeerId then false
    else SP.pkVerify pk payload signature

/-- `StoreChunkResponse`. -/
structure StoreChunkResponse where
  stored : Bool
  timestampMs : Nat
  signature : List Nat
  publicKey : List Nat
deriving DecidableEq, Repr

/-- `RetrieveChunkResponse`. -/
structure RetrieveChunkResponse where
  found : Bool
  data : List Nat
  timestampMs : Nat
  signature : List Nat
  publicKey : List Nat
deriving DecidableEq, Repr

/-- `AuditChunkResponse`. -/
structure AuditChunkResponse where
  found : Bool
  accepted : Bool
  responseHash : String
  timestampMs : Nat
  signature : List Nat
  publicKey : List Nat
deriving DecidableEq, Repr

/-- `StoreChunkResponse::verify_receipt`. -/
def verify_receipt (SP : SigPrims) (r : StoreChunkResponse)
    (expectedPeerId : Nat) (cid : String) (len : Nat) : Bool :=
  verify_signature SP expectedPeerId r.publicKey r.signature
    (receipt_payload cid len r.timestampMs)

/-- `RetrieveChunkResponse::verify_proof`: a `found = false` response never
verifies. -/
def verify_proof (SP : SigPrims) (r : RetrieveChunkResponse)
    (expectedPeerId : Nat) (cid : String) : Bool :=
  if !r.found then false
  else verify_signature SP expectedPeerId r.publicKey r.signature
    (proof_payload cid r.data.length r.timestampMs)

/-- `AuditChunkResponse::verify_audit`: a response with `found = false` or
`accepted = false` never verifies. -/
def verify_audit (SP : SigPrims) (r : AuditChunkResponse)
    (expectedPeerId : Nat) (cid challengeHex nonceHex : String) : Bool :=
  if !r.found || !r.accepted then false
  else verify_signature SP expectedPeerId r.publicKey r.signature
    (audit_payload cid challengeHex nonceHex r.responseHash r.timestampMs)

theorem verify_signature_spec (SP : SigPrims) (expectedPeerId : Nat)
    (pkBytes signature : List Nat) (payload : String)
    (h : verify_signature SP expectedPeerId pkBytes signature payload = true) :
    ∃ pk, SP.decodePk pkBytes = some pk ∧ SP.peerIdOf pk = expectedPeerId ∧
      SP.pkVerify pk payload signature = true := by
  unfold verify_signature at h
  split at h
  · exact absurd h (by simp)
  · next pk hd =>
    by_cases hp : SP.peerIdOf pk = expectedPeerId
    · rw [if_neg (not_not_intro hp)] at h
      exact ⟨pk, hd, hp, h⟩
    · rw [if_pos hp] at h
      exact absurd h (by simp)

/-- C3: each verification helper returns `true` only if the public key
decodes, the derived peer id matches the expected peer id, and the
signature verifies over exactly the canonical colon-delimited payload;
`verify_proof` is `false` whenever `found = false`, and `verify_audit` is
`false` whenever `found = false` or `accepted = false`, regardless of the
signature. -/
theorem verify_helpers_spec :
    (∀ (SP : SigPrims) (r : StoreChunkResponse) (peer : Nat) (cid : String) (len : Nat),
      verify_receipt SP r peer cid len = true →
        ∃ pk, SP.decodePk r.publicKey = some pk ∧ SP.peerIdOf pk = peer ∧
          SP.pkVerify pk (receipt_payload cid len r.timestampMs) r.signature = true) ∧
    (∀ (SP : SigPrims) (r : RetrieveChunkResponse) (peer : Nat) (cid : String),
      verify_proof SP r peer cid = true →
        ∃ pk, SP.decodePk r.publicKey = some pk ∧ SP.peerIdOf pk = peer ∧
          SP.pkVerify pk (proof_payload cid r.data.length r.timestampMs) r.signature = true) ∧
    (∀ (SP : SigPrims) (r : AuditChunkResponse) (peer : Nat) (cid ch non : String),
      verify_audit SP r peer cid ch non = true →
        ∃ pk, SP.decodePk r.publicKey = some pk ∧ SP.peerIdOf pk = peer ∧
          SP.pkVerify pk (audit_payload cid ch non r.responseHash r.timestampMs)
            r.signature = true) ∧
    (∀ (SP : SigPrims) (r : RetrieveChunkResponse) (peer : Nat) (cid : String),
      r.found = false → verify_proof SP r peer cid = false) ∧
    (∀ (SP : SigPrims) (r : AuditChunkResponse) (peer : Nat) (cid ch non : String),
      r.found = false ∨ r.accepted = false → verify_audit SP r peer cid ch non = false) := by
  refine ⟨?_, ?_, ?_, ?_, ?_⟩
  · intro SP r peer cid len h
    exact verify_signature_spec SP peer r.publicKey r.signature _ h
  · intro SP r peer cid h
    unfold verify_proof at h
    cases hf : r.found with
    | false => rw [hf] at h; exact absurd h (by simp)
    | true =>
      rw [hf] at h
      simp only [Bool.not_true, Bool.false_eq_true, if_false] at h
      exact verify_signature_spec SP peer r.publicKey r.signature _ h
  · intro SP r peer cid ch non h
    unfold verify_audit at h
    cases hf : r.found with
    | false => rw [hf] at h; exact absurd h (by simp)
    | true =>
      cases ha : r.accepted with
      | false => rw [hf, ha] at h; exact absurd h (by simp)
      | true =>
        rw [hf, ha] at h
        simp only [Bool.not_true, Bool.or_self, Bool.false_eq_true, if_false] at h
        exact verify_signature_spec SP peer r.publicKey r.signature _ h
  · intro SP r peer cid hf
    unfold verify_proof
    rw [hf]
    rfl
  · intro SP r peer cid ch non hfa
    unfold verify_audit
    rcases hfa with hf | ha
    · rw [hf]; rfl
    · rw [ha]; simp

/-- A concrete `SigPrims` instance for witnesses: key bytes `[k]` decode to
handle `k`, the peer id doubles the handle, and a signature is valid iff it
spells out the payload length. -/
def toySigPrims : SigPrims where
  decodePk bs := match bs with | [k] => some k | _ => none
  peerIdOf pk := 2 * pk
  pkVerify _pk payload signature := signature == [payload.length]

/-- C3 witness: the conjunction instantiated at concrete responses. -/
theorem verify_helpers_spec_witness :
    (∃ pk, toySigPrims.decodePk [3] = some pk ∧ toySigPrims.peerIdOf pk = 6 ∧
      toySigPrims.pkVerify pk (receipt_payload "c" 1 2) [11] = true) ∧
    verify_audit toySigPrims ⟨true, false, "h", 2, [1], [3]⟩ 6 "c" "x" "y" = false := by
  constructor
  · exact verify_helpers_spec.1 toySigPrims ⟨true, 2, [11], [3]⟩ 6 "c" 1 (by decide)
  · exact verify_helpers_spec.2.2.2.2 toySigPrims ⟨true, false, "h", 2, [1], [3]⟩
      6 "c" "x" "y" (Or.inr rfl)

/-! ## Node block store (`node/src/store.rs`) -/

/-- `u64::MAX`, the saturation bound of the used-bytes accounting. -/
def U64MAX : Nat := 2 ^ 64 - 1

/-- `u64::saturating_add`. -/
def satAdd (a b : Nat) : Nat := min (a + b) U64MAX

/-- The sled keyspace entry for a chunk: `"c:" + cid`. -/
def chunk_key (cid : String) : String := "c:" ++ cid

/-- Association-list lookup modelling `sled::Db::get`. -/
def lookupKV (l : List (String × List Nat)) (k : String) : Option (List Nat) :=
  match l.find? (fun e => e.1 == k) with
  | some e => some e.2
  | none => none

/-- Association-list insert-or-replace modelling `sled::Db::insert`. -/
def insertKV (l : List (String × List Nat)) (k : String) (v : List Nat) :
    List (String × List Nat) :=
  if (l.find? (fun e => e.1 == k)).isSome then
    l.map (fun e => if e.1 == k then (k, v) else e)
  else (k, v) :: l

/-- Association-list removal modelling `sled::Db::remove`. -/
def removeKV (l : List (String × List Nat)) (k : String) : List (String × List Nat) :=
  l.filter (fun e => !(e.1 == k))

/-- `SecureBlockStore` state: the chunk entries of the sled tree, the
used-bytes counter, the configured capacity, and the node encryption key. -/
structure StoreState where
  chunks : List (String × List Nat)
  used : Nat
  maxBytes : Nat
  nodeKey : List Nat
deriving DecidableEq, Repr

/-- A fresh store (`SecureBlockStore::new` with an empty directory). -/
def initStore (key : List Nat) (maxBytes : Nat) : StoreState :=
  { chunks := [], used := 0, maxBytes := maxBytes, nodeKey := key }

/-- `save_chunk`: encrypt under a fresh nonce, recompute the projected
used-bytes conservatively, reject over-capacity writes, otherwise insert
the `nonce || ciphertext` payload and persist the counter. -/
def save_chunk (P : Prims) (st : StoreState) (nonce : List Nat)
    (cid : String) (raw : List Nat) : Bool × StoreState :=
  let key := chunk_key cid
  let existingLen := (lookupKV st.chunks key).elim 0 List.length
  match P.aeadEnc st.nodeKey nonce raw with
  | none => (false, st)
  | some ct =>
    let encryptedData := nonce ++ ct
    let projected := satAdd (st.used - existingLen) encryptedData.length
    if projected > st.maxBytes then (false, st)
    else (true,
      { st with
        chunks := insertKV st.chunks key encryptedData
        used := projected })

/-- `retrieve_chunk`: look under the prefixed key, then the legacy raw cid;
payloads shorter than 12 bytes or failing decryption are returned as-is
(legacy plaintext fallback). -/
def retrieve_chunk (P : Prims) (st : StoreState) (cid : String) : Option (List Nat) :=
  let rawLookup :=
    match lookupKV st.chunks (chunk_key cid) with
    | some v => some v
    | none => lookupKV st.chunks cid
  match rawLookup with
  | none => none
  | some payload =>
    if payload.length < 12 then some payload
    else
      match P.aeadDec st.nodeKey (payload.take 12) (payload.drop 12) with
      | some decrypted => some decrypted
      | none => some payload

/-- `delete_chunk`: remove the entry and subtract its stored length. -/
def delete_chunk (st : StoreState) (cid : String) : Bool × StoreState :=
  let key := chunk_key cid
  match lookupKV st.chunks key with
  | some v => (true,
      { st with
        chunks := removeKV st.chunks key
        used := st.used - v.length })
  | none => (false, st)

/-- A save or delete operation, with the nonce drawn for the save. -/
inductive StoreOp where
  | save (nonce : List Nat) (cid : String) (raw : List Nat)
  | delete (cid : String)

/-- Run a sequence of store operations. -/
def runStore (P : Prims) : List StoreOp → StoreState → StoreState
  | [], st => st
  | .save n c r :: rest, st => runStore P rest (save_chunk P st n c r).2
  | .delete c :: rest, st => runStore P rest (delete_chunk st c).2

/-- Total length of the stored payloads. -/
def sumLens (l : List (String × List Nat)) : Nat :=
  l.foldr (fun e a => e.2.length + a) 0

theorem sumLens_cons (e : String × List Nat) (l : List (String × List Nat)) :
    sumLens (e :: l) = e.2.length + sumLens l := rfl

/-- Keys of a store association list. -/
def kvKeys (l : List (String × List Nat)) : List String := l.map Prod.fst

theorem lookupKV_none_of_not_mem (l : List (String × List Nat)) (k : String)
    (h : k ∉ kvKeys l) : lookupKV l k = none := by
  induction l with
  | nil => rfl
  | cons e rest ih =>
    have hk : ¬ (e.1 == k) = true := by
      simp only [beq_iff_eq]
      intro he
      exact h (by simp [kvKeys, he])
    simp only [lookupKV, List.find?]
    rw [Bool.not_eq_true] at hk
    rw [hk]
    exact ih (fun hm => h (by simp [kvKeys] at hm ⊢; exact Or.inr hm))

theorem find?_isSome_iff_mem (l : List (String × List Nat)) (k : String) :
    (l.find? (fun e => e.1 == k)).isSome = true ↔ k ∈ kvKeys l := by
  induction l with
  | nil => simp [kvKeys]
  | cons e rest ih =>
    by_cases he : e.1 = k
    · simp [List.find?, he, kvKeys]
    · have hbeq : (e.1 == k) = false := by simp [he]
      simp only [List.find?, hbeq, kvKeys, List.map_cons, List.mem_cons]
      rw [ih]
      have : ¬ k = e.1 := fun hk => he hk.symm
      simp [kvKeys, this]

theorem lookupKV_replaceMap (l : List (String × List Nat)) (k : String) (v : List Nat)
    (h : k ∈ kvKeys l) :
    lookupKV (l.map (fun e => if e.1 == k then (k, v) else e)) k = some v := by
  induction l with
  | nil => simp [kvKeys] at h
  | cons e rest ih =>
    by_cases he : e.1 = k
    · simp [lookupKV, List.find?, he]
    · have hk : k ∈ kvKeys rest := by
        simp only [kvKeys, List.map_cons, List.mem_cons] at h
        rcases h with h1 | h2
        · exact absurd h1.symm he
        · exact h2
      have hbeq : (e.1 == k) = false := by simp [he]
      simp only [List.map_cons, hbeq, Bool.false_eq_true, if_false]
      simp only [lookupKV, List.find?, hbeq] at ih ⊢
      exact ih hk

theorem lookupKV_insertKV_self (l : List (String × List Nat)) (k : String) (v : List Nat) :
    lookupKV (insertKV l k v) k = some v := by
  unfold insertKV
  split
  · next hfind => exact lookupKV_replaceMap l k v ((find?_isSome_iff_mem l k).mp hfind)
  · simp [lookupKV, List.find?]

theorem replaceMap_of_not_mem (l : List (String × List Nat)) (k : String) (v : List Nat)
    (h : k ∉ kvKeys l) :
    l.map (fun e => if e.1 == k then (k, v) else e) = l := by
  induction l with
  | nil => rfl
  | cons e rest ih =>
    simp only [kvKeys, List.map_cons, List.mem_cons, not_or] at h
    have he : (e.1 == k) = false := by
      simp only [beq_eq_false_iff_ne, ne_eq]
      intro hk
      exact h.1 hk.symm
    simp only [List.map_cons, he, Bool.false_eq_true, if_false]
    rw [ih h.2]

theorem sumLens_insertKV (l : List (String × List Nat)) (k : String) (v : List Nat)
    (hnd : (kvKeys l).Nodup) :
    sumLens (insertKV l k v) + ((lookupKV l k).elim 0 List.length) =
      sumLens l + v.length := by
  unfold insertKV
  split
  · next hfind =>
    induction l with
    | nil => simp [List.find?] at hfind
    | cons e rest ih =>
      simp only [kvKeys, List.map_cons, List.nodup_cons] at hnd
      by_cases he : (e.1 == k) = true
      · have hek : e.1 = k := by simpa using he
        have hrest : k ∉ kvKeys rest := by rw [← hek]; exact hnd.1
        rw [List.map_cons, if_pos he, replaceMap_of_not_mem rest k v hrest]
        have hlook : lookupKV (e :: rest) k = some e.2 := by
          simp [lookupKV, List.find?, he]
        rw [hlook]
        simp only [sumLens_cons, Option.elim_some]
        omega
      · rw [Bool.not_eq_true] at he
        have hfind2 : (rest.find? (fun e => e.1 == k)).isSome = true := by
          simp only [List.find?, he] at hfind
          exact hfind
        have hlook : lookupKV (e :: rest) k = lookupKV rest k := by
          simp [lookupKV, List.find?, he]
        rw [List.map_cons, if_neg (by simp [he]), hlook]
        simp only [sumLens_cons]
        have := ih hnd.2 hfind2
        omega
  · next hfind =>
    have hnone : lookupKV l k = none := by
      unfold lookupKV
      cases hf : List.find? (fun e => e.1 == k) l with
      | none => rfl
      | some e => rw [hf] at hfind; simp at hfind
    rw [hnone]
    simp only [sumLens_cons, Option.elim_none]
    omega

theorem kvKeys_insertKV_nodup (l : List (String × List Nat)) (k : String) (v : List Nat)
    (hnd : (kvKeys l).Nodup) : (kvKeys (insertKV l k v)).Nodup := by
  unfold insertKV
  split
  · next hfind =>
    have hkeys : kvKeys (l.map (fun e => if e.1 == k then (k, v) else e)) = kvKeys l := by
      unfold kvKeys
      rw [List.map_map]
      apply List.map_congr_left
      intro e _
      by_cases he : (e.1 == k) = true
      · have : e.1 = k := by simpa using he
        simp [Function.comp, he, this]
      · rw [Bool.not_eq_true] at he
        simp [Function.comp, he]
    rw [hkeys]
    exact hnd
  · next hfind =>
    have hmem : k ∉ kvKeys l := by
      intro hm
      exact hfind ((find?_isSome_iff_mem l k).mpr hm)
    exact List.Nodup.cons hmem hnd

theorem sumLens_removeKV (l : List (String × List Nat)) (k : String) (v : List Nat)
    (hnd : (kvKeys l).Nodup) (hl : lookupKV l k = some v) :
    sumLens (removeKV l k) + v.length = sumLens l := by
  induction l with
  | nil => simp [lookupKV, List.find?] at hl
  | cons e rest ih =>
    simp only [kvKeys, List.map_cons, List.nodup_cons] at hnd
    by_cases he : (e.1 == k) = true
    · have hek : e.1 = k := by simpa using he
      have hev : e.2 = v := by
        simp [lookupKV, List.find?, he] at hl
        exact hl
      have hrest : removeKV rest k = rest := by
        unfold removeKV
        apply List.filter_eq_self.mpr
        intro x hx
        simp only [Bool.not_eq_eq_eq_not, Bool.not_true, beq_eq_false_iff_ne, ne_eq]
        intro hxk
        rw [← hek] at hxk
        exact hnd.1 (by simp [kvKeys]; exact ⟨x.2, by rw [← hxk]; exact hx⟩)
      simp only [removeKV, List.filter, he, Bool.not_true]
      rw [show (rest.filter fun e => !(e.1 == k)) = rest from hrest]
      rw [sumLens_cons, hev]
      omega
    · rw [Bool.not_eq_true] at he
      have hl2 : lookupKV rest k = some v := by
        simp only [lookupKV, List.find?, he] at hl ⊢
        exact hl
      simp only [removeKV, List.filter, he, Bool.not_false]
      rw [show List.filter (fun e => !(e.1 == k)) rest = removeKV rest k from rfl]
      rw [sumLens_cons]
      have := ih hnd.2 hl2
      rw [show sumLens (e :: rest) = e.2.length + sumLens rest from rfl]
      omega

theorem kvKeys_removeKV_nodup (l : List (String × List Nat)) (k : String)
    (hnd : (kvKeys l).Nodup) : (kvKeys (removeKV l k)).Nodup := by
  unfold removeKV kvKeys
  exact List.Nodup.sublist ((List.filter_sublist l).map Prod.fst) hnd

theorem lookupKV_length_le_sumLens (l : List (String × List Nat)) (k : String) :
    ((lookupKV l k).elim 0 List.length) ≤ sumLens l := by
  induction l with
  | nil => simp [lookupKV, List.find?]
  | cons e rest ih =>
    by_cases he : (e.1 == k) = true
    · simp only [lookupKV, List.find?, he, Option.elim_some, sumLens_cons]
      omega
    · rw [Bool.not_eq_true] at he
      simp only [lookupKV, List.find?, he, sumLens_cons]
      have := ih
      unfold lookupKV at this
      omega

/-- The accounting invariant of the block store: the used-bytes counter
equals the total stored payload length, never exceeds the capacity, and
the keyspace has no duplicate keys. -/
def StoreInv (st : StoreState) : Prop :=
  st.used = sumLens st.chunks ∧ st.used ≤ st.maxBytes ∧ (kvKeys st.chunks).Nodup

theorem satAdd_eq_add_of_le {a b c : Nat} (h : satAdd a b ≤ c) (hc : c < U64MAX) :
    satAdd a b = a + b := by
  unfold satAdd at h ⊢
  rcases Nat.le_total (a + b) U64MAX with hle | hle
  · exact min_eq_left hle
  · rw [min_eq_right hle] at h
    omega

theorem save_chunk_inv (P : Prims) (st : StoreState) (n : List Nat) (c : String)
    (r : List Nat) (hinv : StoreInv st) (hmax : st.maxBytes < U64MAX) :
    StoreInv (save_chunk P st n c r).2 := by
  obtain ⟨hsum, hle, hnd⟩ := hinv
  unfold save_chunk
  cases henc : P.aeadEnc st.nodeKey n r with
  | none => exact ⟨hsum, hle, hnd⟩
  | some ct =>
    simp only
    split
    · exact ⟨hsum, hle, hnd⟩
    · next hover =>
      have hple : satAdd (st.used - (lookupKV st.chunks (chunk_key c)).elim 0 List.length)
          (n ++ ct).length ≤ st.maxBytes := le_of_not_lt hover
      have hexact := satAdd_eq_add_of_le hple hmax
      refine ⟨?_, hple, kvKeys_insertKV_nodup _ _ _ hnd⟩
      have hins := sumLens_insertKV st.chunks (chunk_key c) (n ++ ct) hnd
      have hlk := lookupKV_length_le_sumLens st.chunks (chunk_key c)
      simp only
      omega

theorem delete_chunk_inv (st : StoreState) (c : String) (hinv : StoreInv st) :
    StoreInv (delete_chunk st c).2 := by
  obtain ⟨hsum, hle, hnd⟩ := hinv
  unfold delete_chunk
  cases hlk : lookupKV st.chunks (chunk_key c) with
  | none => simp only [hlk]; exact ⟨hsum, hle, hnd⟩
  | some v =>
    simp only [hlk]
    have hrem := sumLens_removeKV st.chunks (chunk_key c) v hnd hlk
    have hvle : v.length ≤ sumLens st.chunks := by
      have := lookupKV_length_le_sumLens st.chunks (chunk_key c)
      rw [hlk] at this
      simpa using this
    refine ⟨?_, ?_, ?_⟩
    · show st.used - v.length = sumLens (removeKV st.chunks (chunk_key c))
      omega
    · show st.used - v.length ≤ st.maxBytes
      omega
    · show (kvKeys (removeKV st.chunks (chunk_key c))).Nodup
      exact kvKeys_removeKV_nodup _ _ hnd

theorem runStore_maxBytes (P : Prims) (ops : List StoreOp) (st : StoreState) :
    (runStore P ops st).maxBytes = st.maxBytes := by
  induction ops generalizing st with
  | nil => rfl
  | cons op rest ih =>
    cases op with
    | save n c r =>
      rw [show runStore P (.save n c r :: rest) st = runStore P rest (save_chunk P st n c r).2
        from rfl, ih]
      unfold save_chunk
      cases P.aeadEnc st.nodeKey n r with
      | none => rfl
      | some ct =>
        simp only
        split <;> rfl
    | delete c =>
      rw [show runStore P (.delete c :: rest) st = runStore P rest (delete_chunk st c).2
        from rfl, ih]
      unfold delete_chunk
      cases hlk : lookupKV st.chunks (chunk_key c) with
      | none => simp [hlk]
      | some v => simp [hlk]

theorem runStore_inv (P : Prims) (ops : List StoreOp) (st : StoreState)
    (hinv : StoreInv st) (hmax : st.maxBytes < U64MAX) :
    StoreInv (runStore P ops st) := by
  induction ops generalizing st with
  | nil => exact hinv
  | cons op rest ih =>
    cases op with
    | save n c r =>
      have hmax2 : (save_chunk P st n c r).2.maxBytes = st.maxBytes := by
        have := runStore_maxBytes P [StoreOp.save n c r] st
        simpa [runStore] using this
      exact ih _ (save_chunk_inv P st n c r hinv hmax) (by rw [hmax2]; exact hmax)
    | delete c =>
      have hmax2 : (delete_chunk st c).2.maxBytes = st.maxBytes := by
        have := runStore_maxBytes P [StoreOp.delete c] st
        simpa [runStore] using this
      exact ih _ (delete_chunk_inv st c hinv) (by rw [hmax2]; exact hmax)

/-- C5: starting from an empty store whose capacity is below the `u64`
saturation bound, after any sequence of saves and deletes the used-bytes
counter equals the sum of the stored encrypted payload lengths and never
exceeds the capacity; saving the same cid again with a same-length
encryption leaves the counter unchanged; and an over-capacity save returns
`false` without modifying the store. -/
theorem block_store_accounting :
    (∀ (P : Prims) (key : List Nat) (cap : Nat) (ops : List StoreOp), cap < U64MAX →
      (runStore P ops (initStore key cap)).used =
          sumLens (runStore P ops (initStore key cap)).chunks ∧
        (runStore P ops (initStore key cap)).used ≤ cap) ∧
    (∀ (P : Prims) (st : StoreState) (n₁ n₂ : List Nat) (cid : String) (raw ct₁ ct₂ : List Nat),
      st.used ≤ st.maxBytes → st.maxBytes < U64MAX →
      P.aeadEnc st.nodeKey n₁ raw = some ct₁ →
      P.aeadEnc st.nodeKey n₂ raw = some ct₂ →
      (n₁ ++ ct₁).length = (n₂ ++ ct₂).length →
      (save_chunk P (save_chunk P st n₁ cid raw).2 n₂ cid raw).2.used =
        (save_chunk P st n₁ cid raw).2.used) ∧
    (∀ (P : Prims) (st : StoreState) (n : List Nat) (cid : String) (raw ct : List Nat),
      P.aeadEnc st.nodeKey n raw = some ct →
      satAdd (st.used - (lookupKV st.chunks (chunk_key cid)).elim 0 List.length)
          (n ++ ct).length > st.maxBytes →
      save_chunk P st n cid raw = (false, st)) := by
  refine ⟨?_, ?_, ?_⟩
  · intro P key cap ops hcap
    have h := runStore_inv P ops (initStore key cap) ⟨rfl, Nat.zero_le _, List.nodup_nil⟩ hcap
    have hm := runStore_maxBytes P ops (initStore key cap)
    exact ⟨h.1, le_of_le_of_eq h.2.1 hm⟩
  · intro P st n₁ n₂ cid raw ct₁ ct₂ hle hmax h₁ h₂ hlen
    set ex := (lookupKV st.chunks (chunk_key cid)).elim 0 List.length with hex
    by_cases hover : satAdd (st.used - ex) (n₁ ++ ct₁).length > st.maxBytes
    · have hs1 : save_chunk P st n₁ cid raw = (false, st) := by
        unfold save_chunk
        rw [h₁]
        simp only [← hex]
        rw [if_pos hover]
      have hs2 : save_chunk P st n₂ cid raw = (false, st) := by
        unfold save_chunk
        rw [h₂]
        simp only [← hex]
        rw [← hlen, if_pos hover]
      rw [hs1]
      simp only
      rw [hs2]
    · have hs1 : save_chunk P st n₁ cid raw =
          (true, { st with
            chunks := insertKV st.chunks (chunk_key cid) (n₁ ++ ct₁)
            used := satAdd (st.used - ex) (n₁ ++ ct₁).length }) := by
        unfold save_chunk
        rw [h₁]
        simp only [← hex]
        rw [if_neg hover]
      rw [hs1]
      have hsat : satAdd (st.used - ex) (n₁ ++ ct₁).length =
          st.used - ex + (n₁ ++ ct₁).length :=
        satAdd_eq_add_of_le (le_of_not_lt hover) hmax
      unfold save_chunk
      dsimp only
      rw [h₂]
      dsimp only
      rw [lookupKV_insertKV_self]
      simp only [Option.elim_some]
      rw [hsat]
      have harith : st.used - ex + (n₁ ++ ct₁).length - (n₁ ++ ct₁).length = st.used - ex := by
        omega
      rw [harith, ← hlen]
      rw [if_neg (by rw [hsat]; omega)]
      simpa using hsat
  · intro P st n cid raw ct henc hover
    unfold save_chunk
    rw [henc]
    simp only
    rw [if_pos hover]

/-- C5 witness: the three parts of `block_store_accounting` instantiated on
concrete stores and operation sequences. -/
theorem block_store_accounting_witness :
    ((runStore toyPrims [.save [9] "x" [5], .delete "x"] (initStore [1] 1000)).used =
        sumLens (runStore toyPrims [.save [9] "x" [5], .delete "x"]
          (initStore [1] 1000)).chunks ∧
      (runStore toyPrims [.save [9] "x" [5], .delete "x"] (initStore [1] 1000)).used ≤ 1000) ∧
    (save_chunk toyPrims
        (save_chunk toyPrims (initStore [1] 100) [3] "y" [9]).2 [4] "y" [9]).2.used =
      (save_chunk toyPrims (initStore [1] 100) [3] "y" [9]).2.used ∧
    save_chunk toyPrims (initStore [1] 2) [3] "z" [9] = (false, initStore [1] 2) := by
  refine ⟨?_, ?_, ?_⟩
  · exact block_store_accounting.1 toyPrims [1] 1000 [.save [9] "x" [5], .delete "x"]
      (by unfold U64MAX; omega)
  · exact block_store_accounting.2.1 toyPrims (initStore [1] 100) [3] [4] "y" [9]
      [1, 1, 9] [1, 1, 9] (by decide) (by decide) (by decide) (by decide) rfl
  · exact block_store_accounting.2.2 toyPrims (initStore [1] 2) [3] "z" [9] [1, 1, 9]
      (by decide) (by decide)

/-- The cid a store operation addresses. -/
def StoreOp.opCid : StoreOp → String
  | .save _ c _ => c
  | .delete c => c

theorem chunk_key_inj {a b : String} (h : chunk_key a = chunk_key b) : a = b := by
  unfold chunk_key at h
  have hd := congrArg String.data h
  simp only [String.data_append] at hd
  exact String.ext (List.append_cancel_left hd)

theorem lookupKV_replaceMap_ne (l : List (String × List Nat)) (k' : String)
    (v : List Nat) (k : String) (h : k' ≠ k) :
    lookupKV (l.map (fun e => if e.1 == k' then (k', v) else e)) k = lookupKV l k := by
  induction l with
  | nil => rfl
  | cons e rest ih =>
    by_cases he : (e.1 == k') = true
    · have hek : e.1 = k' := by simpa using he
      have h1 : (k' == k) = false := by simp [h]
      have h2 : (e.1 == k) = false := by simp [hek, h]
      rw [List.map_cons, if_pos he]
      simp only [lookupKV, List.find?, h1, h2] at ih ⊢
      exact ih
    · rw [List.map_cons, if_neg he]
      rw [Bool.not_eq_true] at he
      by_cases hk : (e.1 == k) = true
      · simp [lookupKV, List.find?, hk]
      · rw [Bool.not_eq_true] at hk
        simp only [lookupKV, List.find?, hk] at ih ⊢
        exact ih

theorem lookupKV_insertKV_ne (l : List (String × List Nat)) (k' : String)
    (v : List Nat) (k : String) (h : k' ≠ k) :
    lookupKV (insertKV l k' v) k = lookupKV l k := by
  unfold insertKV
  split
  · exact lookupKV_replaceMap_ne l k' v k h
  · have h1 : (k' == k) = false := by simp [h]
    simp [lookupKV, List.find?, h1]

theorem lookupKV_removeKV_ne (l : List (String × List Nat)) (k' k : String)
    (h : k' ≠ k) : lookupKV (removeKV l k') k = lookupKV l k := by
  induction l with
  | nil => rfl
  | cons e rest ih =>
    by_cases he : (e.1 == k') = true
    · have hek : e.1 = k' := by simpa using he
      have h2 : (e.1 == k) = false := by simp [hek, h]
      simp only [removeKV, List.filter, he, Bool.not_true, lookupKV, List.find?, h2]
        at ih ⊢
      exact ih
    · rw [Bool.not_eq_true] at he
      simp only [removeKV, List.filter, he, Bool.not_false]
      by_cases hk : (e.1 == k) = true
      · simp [lookupKV, List.find?, hk]
      · rw [Bool.not_eq_true] at hk
        simp only [removeKV, lookupKV, List.find?, hk] at ih ⊢
        exact ih

/-- A save of another key neither disturbs the lookup at `k` nor changes
the node key. -/
theorem save_chunk_frame (P : Prims) (st : StoreState) (n : List Nat) (c : String)
    (r : List Nat) (k : String) (hk : chunk_key c ≠ k) :
    lookupKV (save_chunk P st n c r).2.chunks k = lookupKV st.chunks k ∧
    (save_chunk P st n c r).2.nodeKey = st.nodeKey := by
  simp only [save_chunk]
  cases henc : P.aeadEnc st.nodeKey n r with
  | none => exact ⟨rfl, rfl⟩
  | some ct =>
    simp only
    split
    · exact ⟨rfl, rfl⟩
    · exact ⟨lookupKV_insertKV_ne st.chunks (chunk_key c) (n ++ ct) k hk, rfl⟩

/-- A delete of another key neither disturbs the lookup at `k` nor changes
the node key. -/
theorem delete_chunk_frame (st : StoreState) (c : String) (k : String)
    (hk : chunk_key c ≠ k) :
    lookupKV (delete_chunk st c).2.chunks k = lookupKV st.chunks k ∧
    (delete_chunk st c).2.nodeKey = st.nodeKey := by
  simp only [delete_chunk]
  cases hl : lookupKV st.chunks (chunk_key c) with
  | none => exact ⟨rfl, rfl⟩
  | some v => exact ⟨lookupKV_removeKV_ne st.chunks (chunk_key c) k hk, rfl⟩

/-- Frame rule: a sequence of saves and deletes that never addresses the
key `k` preserves the lookup at `k` and the node key. -/
theorem runStore_frame (P : Prims) (ops : List StoreOp) (st : StoreState) (k : String)
    (hops : ∀ op ∈ ops, chunk_key op.opCid ≠ k) :
    lookupKV (runStore P ops st).chunks k = lookupKV st.chunks k ∧
    (runStore P ops st).nodeKey = st.nodeKey := by
  induction ops generalizing st with
  | nil => exact ⟨rfl, rfl⟩
  | cons op rest ih =>
    cases op with
    | save n c r =>
      have h1 := save_chunk_frame P st n c r k (hops _ (List.mem_cons_self _ _))
      have h2 := ih (save_chunk P st n c r).2
        (fun o ho => hops o (List.mem_cons_of_mem _ ho))
      exact ⟨h2.1.trans h1.1, h2.2.trans h1.2⟩
    | delete c =>
      have h1 := delete_chunk_frame st c k (hops _ (List.mem_cons_self _ _))
      have h2 := ih (delete_chunk st c).2
        (fun o ho => hops o (List.mem_cons_of_mem _ ho))
      exact ⟨h2.1.trans h1.1, h2.2.trans h1.2⟩

/-- C10: if `save_chunk` stores a chunk (returning `true`), then any later
`retrieve_chunk` of the same cid — with arbitrary intervening saves and
deletes of other cids — decrypts the stored `nonce || ciphertext` payload
and returns exactly the saved bytes; the legacy plaintext fallback is not
taken. -/
theorem save_then_retrieve (P : Prims) (st : StoreState) (nonce : List Nat)
    (cid : String) (raw : List Nat) (st₁ : StoreState) (ops : List StoreOp)
    (hsave : save_chunk P st nonce cid raw = (true, st₁))
    (hops : ∀ op, op ∈ ops → StoreOp.opCid op ≠ cid)
    (hnl : nonce.length = 12)
    (hdec : ∀ ct, P.aeadEnc st.nodeKey nonce raw = some ct →
      P.aeadDec st.nodeKey nonce ct = some raw) :
    retrieve_chunk P (runStore P ops st₁) cid = some raw := by
  have hframe := runStore_frame P ops st₁ (chunk_key cid)
    (fun op hop h => hops op hop (chunk_key_inj h))
  unfold save_chunk at hsave
  cases henc : P.aeadEnc st.nodeKey nonce raw with
  | none =>
    rw [henc] at hsave
    exact absurd (congrArg Prod.fst hsave) (by simp)
  | some ct =>
    rw [henc] at hsave
    simp only at hsave
    split at hsave
    · exact absurd (congrArg Prod.fst hsave) (by simp)
    · have hst : st₁ =
          { st with
            chunks := insertKV st.chunks (chunk_key cid) (nonce ++ ct)
            used := satAdd (st.used - (lookupKV st.chunks (chunk_key cid)).elim 0 List.length)
              (nonce ++ ct).length } := (congrArg Prod.snd hsave).symm
      have hlk1 : lookupKV st₁.chunks (chunk_key cid) = some (nonce ++ ct) := by
        rw [hst]
        exact lookupKV_insertKV_self st.chunks (chunk_key cid) (nonce ++ ct)
      have hnk1 : st₁.nodeKey = st.nodeKey := by rw [hst]
      unfold retrieve_chunk
      rw [hframe.1, hlk1]
      simp only
      have hlen : ¬ (nonce ++ ct).length < 12 := by
        rw [List.length_append, hnl]
        omega
      rw [if_neg hlen]
      have htake : (nonce ++ ct).take 12 = nonce := by
        rw [← hnl]
        exact List.take_left nonce ct
      have hdrop : (nonce ++ ct).drop 12 = ct := by
        rw [← hnl]
        exact List.drop_left nonce ct
      rw [htake, hdrop, hframe.2, hnk1]
      rw [hdec ct henc]

/-- C10 witness: a concrete save, followed by a save and a delete of a
different cid, then a retrieve, returns the originally saved bytes. -/
theorem save_then_retrieve_witness :
    retrieve_chunk toyPrims
      (runStore toyPrims
        [StoreOp.save [9, 9, 9, 9, 9, 9, 9, 9, 9, 9, 9, 9] "y" [5], StoreOp.delete "y"]
        (save_chunk toyPrims (initStore [1, 2] 1000) [0, 1, 2, 3, 4, 5, 6, 7, 8, 9, 10, 11]
          "x" [7, 8]).2) "x" = some [7, 8] := by
  apply save_then_retrieve toyPrims (initStore [1, 2] 1000)
    [0, 1, 2, 3, 4, 5, 6, 7, 8, 9, 10, 11] "x" [7, 8]
  · decide
  · intro op hop
    cases hop with
    | head => decide
    | tail _ h =>
      cases h with
      | head => decide
      | tail _ h2 => cases h2
  · decide
  · intro ct h
    have hct : ct = [2, 1, 2, 7, 8] := by
      have : some [2, 1, 2, 7, 8] = some ct := h
      exact (Option.some.inj this).symm
    subst hct
    decide

/-! ## Node audit replay guard (`node/src/p2p.rs`) -/

/-- The replay TTL: ten minutes in milliseconds. -/
def AUDIT_TTL_MS : Nat := 10 * 60 * 1000

/-- `register_audit_nonce`: retain non-expired entries, reject a present
key (`"cid:nonce"`), otherwise record it.  `u64` saturating subtraction is
`Nat` subtraction; the Rust locals `key` and the retained map are inlined. -/
def register_audit_nonce (guard : List (String × Nat)) (now : Nat)
    (cid nonceHex : String) : Bool × List (String × Nat) :=
  if (guard.filter (fun e => now - e.2 ≤ AUDIT_TTL_MS)).any
      (fun e => e.1 == cid ++ ":" ++ nonceHex) then
    (false, guard.filter (fun e => now - e.2 ≤ AUDIT_TTL_MS))
  else
    (true, (cid ++ ":" ++ nonceHex, now) :: guard.filter (fun e => now - e.2 ≤ AUDIT_TTL_MS))

/-- The audit fields of a `ChunkReply::Audit` response. -/
structure AuditResult where
  found : Bool
  accepted : Bool
  responseHash : String
deriving DecidableEq, Repr

/-- The `ChunkCommand::Audit` arm of `handle_chunk_command`: run the replay
guard, read the shard, and emit the response hash only for an accepted
audit over a stored chunk. -/
def handle_audit (P : Prims) (store : String → Option (List Nat))
    (guard : List (String × Nat)) (now : Nat)
    (cid challengeHex nonceHex : String) : AuditResult × List (String × Nat) :=
  let acc := register_audit_nonce guard now cid nonceHex
  let maybe := store cid
  let responseHash :=
    if acc.1 then
      match maybe with
      | some data => P.sha256hex (P.hexDecode challengeHex ++ data)
      | none => ""
    else ""
  ({ found := maybe.isSome, accepted := acc.1, responseHash := responseHash }, acc.2)

/-- An inbound audit request with its arrival time. -/
structure AuditReq where
  now : Nat
  cid : String
  challengeHex : String
  nonceHex : String

/-- Process a sequence of audit commands against the replay guard. -/
def runAudits (P : Prims) (store : String → Option (List Nat)) :
    List AuditReq → List (String × Nat) → List (String × Nat)
  | [], g => g
  | r :: rest, g =>
    runAudits P store rest (handle_audit P store g r.now r.cid r.challengeHex r.nonceHex).2

theorem register_audit_nonce_preserves_mem (guard : List (String × Nat)) (now : Nat)
    (cid nonceHex key : String) (ts : Nat)
    (hmem : (key, ts) ∈ guard) (hfresh : now - ts ≤ AUDIT_TTL_MS) :
    (key, ts) ∈ (register_audit_nonce guard now cid nonceHex).2 := by
  unfold register_audit_nonce
  have hret : (key, ts) ∈ guard.filter (fun e => now - e.2 ≤ AUDIT_TTL_MS) := by
    rw [List.mem_filter]
    exact ⟨hmem, by simpa using hfresh⟩
  split
  · exact hret
  · exact List.mem_cons_of_mem _ hret

theorem register_audit_nonce_mem_of_accepted (guard : List (String × Nat)) (now : Nat)
    (cid nonceHex : String)
    (h : (register_audit_nonce guard now cid nonceHex).1 = true) :
    (cid ++ ":" ++ nonceHex, now) ∈ (register_audit_nonce guard now cid nonceHex).2 := by
  unfold register_audit_nonce at h ⊢
  split at h
  · exact absurd h (by simp)
  · next hcond =>
    rw [if_neg hcond]
    exact List.mem_cons_self _ _

theorem handle_audit_guard_eq (P : Prims) (store : String → Option (List Nat))
    (g : List (String × Nat)) (now : Nat) (cid ch nonceHex : String) :
    (handle_audit P store g now cid ch nonceHex).2 =
      (register_audit_nonce g now cid nonceHex).2 := rfl

theorem handle_audit_accepted_eq (P : Prims) (store : String → Option (List Nat))
    (g : List (String × Nat)) (now : Nat) (cid ch nonceHex : String) :
    (handle_audit P store g now cid ch nonceHex).1.accepted =
      (register_audit_nonce g now cid nonceHex).1 := rfl

theorem handle_audit_hash_of_rejected (P : Prims) (store : String → Option (List Nat))
    (g : List (String × Nat)) (now : Nat) (cid ch nonceHex : String)
    (h : (register_audit_nonce g now cid nonceHex).1 = false) :
    (handle_audit P store g now cid ch nonceHex).1.responseHash = "" := by
  unfold handle_audit
  simp [h]

theorem handle_audit_preserves_mem (P : Prims) (store : String → Option (List Nat))
    (guard : List (String × Nat)) (now : Nat) (cid ch nonceHex key : String) (ts : Nat)
    (hmem : (key, ts) ∈ guard) (hfresh : now - ts ≤ AUDIT_TTL_MS) :
    (key, ts) ∈ (handle_audit P store guard now cid ch nonceHex).2 :=
  register_audit_nonce_preserves_mem guard now cid nonceHex key ts hmem hfresh

theorem runAudits_preserves_mem (P : Prims) (store : String → Option (List Nat))
    (reqs : List AuditReq) (guard : List (String × Nat)) (key : String) (ts : Nat)
    (hmem : (key, ts) ∈ guard)
    (hfresh : ∀ r ∈ reqs, r.now - ts ≤ AUDIT_TTL_MS) :
    (key, ts) ∈ runAudits P store reqs guard := by
  induction reqs generalizing guard with
  | nil => exact hmem
  | cons r rest ih =>
    exact ih _ (handle_audit_preserves_mem P store guard r.now r.cid r.challengeHex
        r.nonceHex key ts hmem (hfresh r (List.mem_cons_self r rest)))
      (fun r2 h2 => hfresh r2 (List.mem_cons_of_mem r h2))

theorem register_audit_nonce_rejects_present (guard : List (String × Nat)) (now : Nat)
    (cid nonceHex : String) (ts : Nat)
    (hmem : (cid ++ ":" ++ nonceHex, ts) ∈ guard) (hfresh : now - ts ≤ AUDIT_TTL_MS) :
    (register_audit_nonce guard now cid nonceHex).1 = false := by
  unfold register_audit_nonce
  have hany : (guard.filter (fun e => now - e.2 ≤ AUDIT_TTL_MS)).any
      (fun e => e.1 == cid ++ ":" ++ nonceHex) = true := by
    rw [List.any_eq_true]
    refine ⟨(cid ++ ":" ++ nonceHex, ts), ?_, by simp⟩
    rw [List.mem_filter]
    exact ⟨hmem, by simpa using hfresh⟩
  rw [if_pos hany]

/-- C4: once a node's audit handler has accepted an audit for a given
`(cid, nonce_hex)` pair, every later audit for the same pair arriving
within the ten-minute replay TTL — regardless of intervening audit traffic
— is answered with `accepted = false` and an empty `response_hash`. -/
theorem audit_replay_rejected (P : Prims) (store : String → Option (List Nat))
    (g₀ : List (String × Nat)) (c n ch₁ ch₂ : String) (t₁ t₂ : Nat) (mid : List AuditReq)
    (hacc : (handle_audit P store g₀ t₁ c ch₁ n).1.accepted = true)
    (hmono : ∀ r ∈ mid, t₁ ≤ r.now ∧ r.now ≤ t₂)
    (ht : t₁ ≤ t₂) (httl : t₂ - t₁ ≤ AUDIT_TTL_MS) :
    (handle_audit P store
        (runAudits P store mid (handle_audit P store g₀ t₁ c ch₁ n).2)
        t₂ c ch₂ n).1.accepted = false ∧
      (handle_audit P store
        (runAudits P store mid (handle_audit P store g₀ t₁ c ch₁ n).2)
        t₂ c ch₂ n).1.responseHash = "" := by
  have hkey : (c ++ ":" ++ n, t₁) ∈ (handle_audit P store g₀ t₁ c ch₁ n).2 := by
    rw [handle_audit_guard_eq]
    exact register_audit_nonce_mem_of_accepted g₀ t₁ c n
      ((handle_audit_accepted_eq P store g₀ t₁ c ch₁ n).symm.trans hacc)
  have hmem : (c ++ ":" ++ n, t₁) ∈
      runAudits P store mid (handle_audit P store g₀ t₁ c ch₁ n).2 :=
    runAudits_preserves_mem P store mid _ _ _ hkey
      (fun r hr => by
        have := hmono r hr
        omega)
  have hrej := register_audit_nonce_rejects_present
    (runAudits P store mid (handle_audit P store g₀ t₁ c ch₁ n).2) t₂ c n t₁ hmem
    (by omega)
  refine ⟨(handle_audit_accepted_eq _ _ _ _ _ _ _).trans hrej, ?_⟩
  exact handle_audit_hash_of_rejected _ _ _ _ _ _ _ hrej

/-- C4 witness: a concrete accepted audit followed by an in-TTL duplicate
that is rejected with an empty response hash. -/
theorem audit_replay_rejected_witness :
    (handle_audit toyPrims (fun _ => some [1])
        (runAudits toyPrims (fun _ => some [1]) [⟨50, "q", "w", "e"⟩]
          (handle_audit toyPrims (fun _ => some [1]) [] 10 "a" "x" "b").2)
        100 "a" "y" "b").1.accepted = false ∧
      (handle_audit toyPrims (fun _ => some [1])
        (runAudits toyPrims (fun _ => some [1]) [⟨50, "q", "w", "e"⟩]
          (handle_audit toyPrims (fun _ => some [1]) [] 10 "a" "x" "b").2)
        100 "a" "y" "b").1.responseHash = "" := by
  apply audit_replay_rejected toyPrims (fun _ => some [1]) [] "a" "b" "x" "y" 10 100
    [⟨50, "q", "w", "e"⟩]
  · decide
  · intro r hr
    rw [List.mem_singleton] at hr
    subst hr
    exact ⟨by decide, by decide⟩
  · omega
  · decide

/-! ## Gateway proof-of-spacetime challenges (`gateway/src/proofs.rs`)

The `zk_proof_challenges` table is modelled as an association list from
challenge id to status and expiry time.  The operations are the SQL writes
the subsystem performs:

* `create`  — `create_challenge_for_target`: insert a `pending` row with
  `expires_at = now + 90` seconds (`PROOF_CHALLENGE_TTL_SECS`);
* `sweep`   — `expire_stale_challenges`: set `status = 'expired'` on
  `pending` rows with `expires_at < NOW()`;
* `extVerify` — the `verify_zk_proof` handler: it selects the row only
  with `status = 'pending' AND expires_at > NOW()`, abstracts the
  payload/signature checks into `checksPass`, and on a failing ZK circuit
  check marks the challenge `failed`, otherwise finalizes it `verified`;
* `daemonFinalize` / `daemonFail` — `finalize_verified_challenge` and
  `mark_challenge_failed`, unconditional status updates by challenge id.

Trace validity records that wall-clock time is monotone and that the
daemon finalizes a challenge strictly before its recorded expiry: the
daemon awaits the audit ack under a 12-second timeout while the challenge
TTL is 90 seconds, so `finalize_verified_challenge` runs with
`NOW() < expires_at`. -/

/-- A challenge status. -/
inductive ChStatus where
  | pending
  | verified
  | failed
  | expired
deriving DecidableEq, Repr

/-- One `zk_proof_challenges` row. -/
structure ChRec where
  status : ChStatus
  expiresAt : Nat
deriving DecidableEq, Repr

/-- The challenge table. -/
def ChTable : Type := List (String × ChRec)

/-- Row lookup by challenge id. -/
def lookupCh (t : ChTable) (id : String) : Option ChRec :=
  match (List.find? (fun e => e.1 == id) t : Option (String × ChRec)) with
  | some e => some e.2
  | none => none

/-- `UPDATE zk_proof_challenges SET status = s WHERE challenge_id = id`. -/
def setChStatus (t : ChTable) (id : String) (s : ChStatus) : ChTable :=
  (t : List (String × ChRec)).map
    (fun e => if e.1 == id then (e.1, { e.2 with status := s }) else e)

/-- `PROOF_CHALLENGE_TTL_SECS`. -/
def PROOF_TTL_SECS : Nat := 90

/-- A proof-subsystem operation, each carrying its wall-clock time. -/
inductive ProofOp where
  | create (id : String) (now : Nat)
  | sweep (now : Nat)
  | extVerify (id : String) (now : Nat) (checksPass zkPass : Bool)
  | daemonFinalize (id : String) (now : Nat)
  | daemonFail (id : String) (now : Nat)

/-- The wall-clock time of an operation. -/
def ProofOp.time : ProofOp → Nat
  | .create _ now => now
  | .sweep now => now
  | .extVerify _ now _ _ => now
  | .daemonFinalize _ now => now
  | .daemonFail _ now => now

/-- Apply one operation to the challenge table. -/
def applyProofOp (t : ChTable) : ProofOp → ChTable
  | .create id now => (id, { status := .pending, expiresAt := now + PROOF_TTL_SECS }) :: t
  | .sweep now =>
    (t : List (String × ChRec)).map
      (fun e =>
        if e.2.status = .pending ∧ e.2.expiresAt < now then
          (e.1, { e.2 with status := .expired })
        else e)
  | .extVerify id now checksPass zkPass =>
    match lookupCh t id with
    | some rec =>
      if rec.status = .pending ∧ now < rec.expiresAt ∧ checksPass = true then
        if zkPass then setChStatus t id .verified else setChStatus t id .failed
      else t
    | none => t
  | .daemonFinalize id _now => setChStatus t id .verified
  | .daemonFail id _now => setChStatus t id .failed

/-- Run a sequence of operations. -/
def runProofOps (t : ChTable) : List ProofOp → ChTable
  | [] => t
  | op :: rest => runProofOps (applyProofOp t op) rest

/-- Side conditions under which the code performs an operation: challenge
ids are fresh at insertion (random ids under a primary key), and the
daemon's finalization happens before the challenge's recorded expiry
(12-second ack timeout against the 90-second TTL). -/
def ProofOpOk (t : ChTable) : ProofOp → Prop
  | .create id _ => lookupCh t id = none
  | .daemonFinalize id now => ∃ r, lookupCh t id = some r ∧ now < r.expiresAt
  | _ => True

/-- Trace validity from a table and a time lower bound: operation times
are monotone and each operation satisfies its side condition. -/
def ValidProofTrace (t : ChTable) (tmin : Nat) : List ProofOp → Prop
  | [] => True
  | op :: rest =>
    tmin ≤ op.time ∧ ProofOpOk t op ∧ ValidProofTrace (applyProofOp t op) op.time rest

theorem find?_map_key (f : String × ChRec → String × ChRec)
    (hf : ∀ e, (f e).1 = e.1) (t : List (String × ChRec)) (id : String) :
    List.find? (fun e => e.1 == id) (t.map f) =
      (List.find? (fun e => e.1 == id) t).map f := by
  induction t with
  | nil => rfl
  | cons e rest ih =>
    by_cases he : (e.1 == id) = true
    · simp [List.find?, hf e, he]
    · rw [Bool.not_eq_true] at he
      simp [List.find?, hf e, he, ih]

theorem lookupCh_eq_find? (t : ChTable) (id : String) :
    lookupCh t id = (List.find? (fun e => e.1 == id) t).map Prod.snd := by
  unfold lookupCh
  cases List.find? (fun e => e.1 == id) (t : List (String × ChRec)) <;> rfl

theorem lookupCh_setChStatus (t : ChTable) (k id : String) (s : ChStatus) :
    lookupCh (setChStatus t k s) id =
      if id = k then (lookupCh t id).map (fun r => { r with status := s })
      else lookupCh t id := by
  have hf : ∀ e : String × ChRec,
      ((if e.1 == k then (e.1, { e.2 with status := s }) else e) : String × ChRec).1 = e.1 := by
    intro e
    split <;> rfl
  rw [lookupCh_eq_find?, setChStatus, find?_map_key _ hf, lookupCh_eq_find?]
  cases hfind : List.find? (fun e => e.1 == id) (t : List (String × ChRec)) with
  | none => simp
  | some e =>
    have hkey : e.1 = id := by simpa using List.find?_some hfind
    by_cases hik : id = k
    · have hek : (e.1 == k) = true := by rw [hkey, hik]; simp
      simp only [Option.map_some', hek, if_true, if_pos hik]
    · have hek : (e.1 == k) = false := by rw [hkey]; simp [hik]
      simp only [Option.map_some', hek, Bool.false_eq_true, if_false, if_neg hik]

theorem applyProofOp_extVerify_some (t : ChTable) (id2 : String) (now : Nat)
    (cp zp : Bool) (rec : ChRec) (h : lookupCh t id2 = some rec) :
    applyProofOp t (.extVerify id2 now cp zp) =
      if rec.status = .pending ∧ now < rec.expiresAt ∧ cp = true then
        (if zp then setChStatus t id2 .verified else setChStatus t id2 .failed)
      else t := by
  rw [show applyProofOp t (.extVerify id2 now cp zp) =
    (match lookupCh t id2 with
      | some rec =>
        if rec.status = .pending ∧ now < rec.expiresAt ∧ cp = true then
          (if zp then setChStatus t id2 .verified else setChStatus t id2 .failed)
        else t
      | none => t) from rfl, h]

theorem applyProofOp_extVerify_none (t : ChTable) (id2 : String) (now : Nat)
    (cp zp : Bool) (h : lookupCh t id2 = none) :
    applyProofOp t (.extVerify id2 now cp zp) = t := by
  rw [show applyProofOp t (.extVerify id2 now cp zp) =
    (match lookupCh t id2 with
      | some rec =>
        if rec.status = .pending ∧ now < rec.expiresAt ∧ cp = true then
          (if zp then setChStatus t id2 .verified else setChStatus t id2 .failed)
        else t
      | none => t) from rfl, h]

/-- The terminal-safety invariant for a single challenge id: the row
exists, its expiry lies strictly before the current time bound, and its
status is `expired` or `failed`. -/
def DeadInv (t : ChTable) (tmin : Nat) (id : String) : Prop :=
  ∃ r, lookupCh t id = some r ∧ r.expiresAt < tmin ∧
    (r.status = .expired ∨ r.status = .failed)

theorem deadInv_step (t : ChTable) (tmin : Nat) (id : String) (op : ProofOp)
    (hinv : DeadInv t tmin id) (htime : tmin ≤ op.time) (hok : ProofOpOk t op) :
    DeadInv (applyProofOp t op) op.time id := by
  obtain ⟨r, hl, hexp, hst⟩ := hinv
  have hexp2 : r.expiresAt < op.time := lt_of_lt_of_le hexp htime
  cases op with
  | create id2 now =>
    refine ⟨r, ?_, hexp2, hst⟩
    have hne : (id2 == id) = false := by
      simp only [beq_eq_false_iff_ne, ne_eq]
      intro heq
      subst heq
      have hok2 : lookupCh t id2 = none := hok
      rw [hl] at hok2
      exact Option.noConfusion hok2
    rw [show applyProofOp t (.create id2 now) =
      (id2, { status := .pending, expiresAt := now + PROOF_TTL_SECS }) :: t from rfl]
    rw [lookupCh_eq_find?] at hl ⊢
    simp only [List.find?, hne]
    exact hl
  | sweep now =>
    refine ⟨r, ?_, hexp2, hst⟩
    have hf : ∀ e : String × ChRec,
        ((if e.2.status = ChStatus.pending ∧ e.2.expiresAt < now then
          (e.1, { e.2 with status := ChStatus.expired }) else e) : String × ChRec).1 = e.1 := by
      intro e
      split <;> rfl
    rw [lookupCh_eq_find?] at hl ⊢
    rw [show applyProofOp t (.sweep now) =
      (t : List (String × ChRec)).map
        (fun e => if e.2.status = ChStatus.pending ∧ e.2.expiresAt < now then
          (e.1, { e.2 with status := ChStatus.expired }) else e) from rfl]
    rw [find?_map_key _ hf]
    cases hfind : List.find? (fun e => e.1 == id) (t : List (String × ChRec)) with
    | none => rw [hfind] at hl; exact Option.noConfusion hl
    | some e =>
      rw [hfind] at hl
      simp only [Option.map_some'] at hl
      have her : e.2 = r := by injection hl
      have hnp : ¬ (e.2.status = ChStatus.pending ∧ e.2.expiresAt < now) := by
        rintro ⟨hp, _⟩
        rw [her] at hp
        rcases hst with h | h <;> rw [hp] at h <;> exact ChStatus.noConfusion h
      simp only [Option.map_some']
      rw [if_neg hnp]
      exact hl
  | extVerify id2 now checksPass zkPass =>
    refine ⟨r, ?_, hexp2, hst⟩
    cases hl2 : lookupCh t id2 with
    | none =>
      rw [applyProofOp_extVerify_none t id2 now checksPass zkPass hl2]
      exact hl
    | some rec =>
      rw [applyProofOp_extVerify_some t id2 now checksPass zkPass rec hl2]
      by_cases hcond : (rec.status = ChStatus.pending ∧ now < rec.expiresAt ∧ checksPass = true)
      · rw [if_pos hcond]
        have hne : ¬ id = id2 := by
          intro heq
          subst heq
          rw [hl] at hl2
          have : r = rec := by injection hl2
          subst this
          rcases hst with h | h <;> rw [h] at hcond <;> exact ChStatus.noConfusion hcond.1
        cases zkPass with
        | true =>
          simp only [if_true]
          rw [lookupCh_setChStatus, if_neg hne]
          exact hl
        | false =>
          simp only [Bool.false_eq_true, if_false]
          rw [lookupCh_setChStatus, if_neg hne]
          exact hl
      · rw [if_neg hcond]
        exact hl
  | daemonFinalize id2 now =>
    have hne : ¬ id = id2 := by
      intro heq
      subst heq
      obtain ⟨r2, hl2, hlt⟩ := hok
      rw [hl] at hl2
      have : r = r2 := by injection hl2
      subst this
      simp only [ProofOp.time] at hexp2
      omega
    refine ⟨r, ?_, hexp2, hst⟩
    rw [show applyProofOp t (.daemonFinalize id2 now) = setChStatus t id2 .verified from rfl]
    rw [lookupCh_setChStatus, if_neg hne]
    exact hl
  | daemonFail id2 now =>
    rw [show applyProofOp t (.daemonFail id2 now) = setChStatus t id2 .failed from rfl]
    by_cases hne : id = id2
    · refine ⟨{ r with status := .failed }, ?_, hexp2, Or.inr rfl⟩
      rw [lookupCh_setChStatus, if_pos hne, hl]
      rfl
    · refine ⟨r, ?_, hexp2, hst⟩
      rw [lookupCh_setChStatus, if_neg hne]
      exact hl

theorem deadInv_run (t : ChTable) (tmin : Nat) (id : String) (ops : List ProofOp)
    (hinv : DeadInv t tmin id) (hvalid : ValidProofTrace t tmin ops) :
    ∃ r, lookupCh (runProofOps t ops) id = some r ∧
      (r.status = .expired ∨ r.status = .failed) := by
  induction ops generalizing t tmin with
  | nil =>
    obtain ⟨r, hl, _, hst⟩ := hinv
    exact ⟨r, hl, hst⟩
  | cons op rest ih =>
    obtain ⟨htime, hok, hrest⟩ := hvalid
    exact ih (applyProofOp t op) op.time (deadInv_step t tmin id op hinv htime hok) hrest

/-- The global invariant that every `expired` row's expiry lies in the
past.  It holds of an empty table and is preserved by every valid
operation. -/
def ExpiredPast (t : ChTable) (tmin : Nat) : Prop :=
  ∀ id r, lookupCh t id = some r → r.status = .expired → r.expiresAt < tmin

theorem expiredPast_step (t : ChTable) (tmin : Nat) (op : ProofOp)
    (hinv : ExpiredPast t tmin) (htime : tmin ≤ op.time) (_hok : ProofOpOk t op) :
    ExpiredPast (applyProofOp t op) op.time := by
  intro id r hl hst
  cases op with
  | create id2 now =>
    rw [show applyProofOp t (.create id2 now) =
      (id2, { status := .pending, expiresAt := now + PROOF_TTL_SECS }) :: t from rfl] at hl
    rw [lookupCh_eq_find?] at hl
    simp only [List.find?] at hl
    by_cases he : (id2 == id) = true
    · rw [he] at hl
      simp only [Option.map_some'] at hl
      have : ({ status := ChStatus.pending, expiresAt := now + PROOF_TTL_SECS } : ChRec) = r := by
        injection hl
      rw [← this] at hst
      exact ChStatus.noConfusion hst
    · rw [Bool.not_eq_true] at he
      rw [he] at hl
      rw [← lookupCh_eq_find?] at hl
      exact lt_of_lt_of_le (hinv id r hl hst) htime
  | sweep now =>
    have hf : ∀ e : String × ChRec,
        ((if e.2.status = ChStatus.pending ∧ e.2.expiresAt < now then
          (e.1, { e.2 with status := ChStatus.expired }) else e) : String × ChRec).1 = e.1 := by
      intro e
      split <;> rfl
    rw [show applyProofOp t (.sweep now) =
      (t : List (String × ChRec)).map
        (fun e => if e.2.status = ChStatus.pending ∧ e.2.expiresAt < now then
          (e.1, { e.2 with status := ChStatus.expired }) else e) from rfl] at hl
    rw [lookupCh_eq_find?, find?_map_key _ hf] at hl
    cases hfind : List.find? (fun e => e.1 == id) (t : List (String × ChRec)) with
    | none => rw [hfind] at hl; exact Option.noConfusion hl
    | some e =>
      rw [hfind] at hl
      simp only [Option.map_some'] at hl
      have hlt : lookupCh t id = some e.2 := by
        rw [lookupCh_eq_find?, hfind]
        rfl
      by_cases hcond : (e.2.status = ChStatus.pending ∧ e.2.expiresAt < now)
      · rw [if_pos hcond] at hl
        have : ({ e.2 with status := ChStatus.expired } : ChRec) = r := by injection hl
        rw [← this]
        simpa [ProofOp.time] using hcond.2
      · rw [if_neg hcond] at hl
        have : e.2 = r := by injection hl
        rw [this] at hlt
        exact lt_of_lt_of_le (hinv id r hlt hst) htime
  | extVerify id2 now checksPass zkPass =>
    cases hl2 : lookupCh t id2 with
    | none =>
      rw [applyProofOp_extVerify_none t id2 now checksPass zkPass hl2] at hl
      exact lt_of_lt_of_le (hinv id r hl hst) htime
    | some rec =>
      rw [applyProofOp_extVerify_some t id2 now checksPass zkPass rec hl2] at hl
      by_cases hcond : (rec.status = ChStatus.pending ∧ now < rec.expiresAt ∧ checksPass = true)
      · rw [if_pos hcond] at hl
        cases zkPass with
        | true =>
          simp only [if_true] at hl
          rw [lookupCh_setChStatus] at hl
          by_cases hne : id = id2
          · rw [if_pos hne] at hl
            cases hlo : lookupCh t id with
            | none => rw [hlo] at hl; exact Option.noConfusion hl
            | some x =>
              rw [hlo] at hl
              simp only [Option.map_some'] at hl
              have : ({ x with status := ChStatus.verified } : ChRec) = r := by injection hl
              rw [← this] at hst
              exact ChStatus.noConfusion hst
          · rw [if_neg hne] at hl
            exact lt_of_lt_of_le (hinv id r hl hst) htime
        | false =>
          simp only [Bool.false_eq_true, if_false] at hl
          rw [lookupCh_setChStatus] at hl
          by_cases hne : id = id2
          · rw [if_pos hne] at hl
            cases hlo : lookupCh t id with
            | none => rw [hlo] at hl; exact Option.noConfusion hl
            | some x =>
              rw [hlo] at hl
              simp only [Option.map_some'] at hl
              have : ({ x with status := ChStatus.failed } : ChRec) = r := by injection hl
              rw [← this] at hst
              exact ChStatus.noConfusion hst
          · rw [if_neg hne] at hl
            exact lt_of_lt_of_le (hinv id r hl hst) htime
      · rw [if_neg hcond] at hl
        exact lt_of_lt_of_le (hinv id r hl hst) htime
  | daemonFinalize id2 now =>
    rw [show applyProofOp t (.daemonFinalize id2 now) = setChStatus t id2 .verified from rfl,
      lookupCh_setChStatus] at hl
    by_cases hne : id = id2
    · rw [if_pos hne] at hl
      cases hlo : lookupCh t id with
      | none => rw [hlo] at hl; exact Option.noConfusion hl
      | some x =>
        rw [hlo] at hl
        simp only [Option.map_some'] at hl
        have : ({ x with status := ChStatus.verified } : ChRec) = r := by injection hl
        rw [← this] at hst
        exact ChStatus.noConfusion hst
    · rw [if_neg hne] at hl
      exact lt_of_lt_of_le (hinv id r hl hst) htime
  | daemonFail id2 now =>
    rw [show applyProofOp t (.daemonFail id2 now) = setChStatus t id2 .failed from rfl,
      lookupCh_setChStatus] at hl
    by_cases hne : id = id2
    · rw [if_pos hne] at hl
      cases hlo : lookupCh t id with
      | none => rw [hlo] at hl; exact Option.noConfusion hl
      | some x =>
        rw [hlo] at hl
        simp only [Option.map_some'] at hl
        have : ({ x with status := ChStatus.failed } : ChRec) = r := by injection hl
        rw [← this] at hst
        exact ChStatus.noConfusion hst
    · rw [if_neg hne] at hl
      exact lt_of_lt_of_le (hinv id r hl hst) htime

/-- Wall-clock time after a sequence of operations. -/
def timeAfter (tmin : Nat) (ops : List ProofOp) : Nat :=
  ops.foldl (fun _ op => op.time) tmin

theorem validProofTrace_append (t : ChTable) (tmin : Nat) (ops₁ ops₂ : List ProofOp)
    (h : ValidProofTrace t tmin (ops₁ ++ ops₂)) :
    ValidProofTrace t tmin ops₁ ∧
      ValidProofTrace (runProofOps t ops₁) (timeAfter tmin ops₁) ops₂ := by
  induction ops₁ generalizing t tmin with
  | nil => exact ⟨trivial, h⟩
  | cons op rest ih =>
    obtain ⟨ht, hok, hrest⟩ := h
    have := ih (applyProofOp t op) op.time hrest
    exact ⟨⟨ht, hok, this.1⟩, this.2⟩

theorem expiredPast_run (t : ChTable) (tmin : Nat) (ops : List ProofOp)
    (hinv : ExpiredPast t tmin) (hv : ValidProofTrace t tmin ops) :
    ExpiredPast (runProofOps t ops) (timeAfter tmin ops) := by
  induction ops generalizing t tmin with
  | nil => exact hinv
  | cons op rest ih =>
    obtain ⟨ht, hok, hrest⟩ := hv
    exact ih _ _ (expiredPast_step t tmin op hinv ht hok) hrest

theorem runProofOps_append (t : ChTable) (ops₁ ops₂ : List ProofOp) :
    runProofOps t (ops₁ ++ ops₂) = runProofOps (runProofOps t ops₁) ops₂ := by
  induction ops₁ generalizing t with
  | nil => rfl
  | cons op rest ih => simpa [runProofOps] using ih (applyProofOp t op)

/-- C6: over any valid operation sequence of the proof subsystem (expiry
sweeps, daemon finalizations and failure marks, external proof
submissions), a challenge whose status has become `expired` is never
subsequently `verified`: after any further valid operations its status is
still `expired` or at most `failed`, never `verified`. -/
theorem expired_never_verified (t₀ : ChTable) (n₀ : Nat) (ops₁ ops₂ : List ProofOp)
    (id : String) (r₁ r₂ : ChRec)
    (hpast : ExpiredPast t₀ n₀)
    (hvalid : ValidProofTrace t₀ n₀ (ops₁ ++ ops₂))
    (h₁ : lookupCh (runProofOps t₀ ops₁) id = some r₁) (hr₁ : r₁.status = .expired)
    (h₂ : lookupCh (runProofOps t₀ (ops₁ ++ ops₂)) id = some r₂) :
    r₂.status ≠ .verified := by
  obtain ⟨hv₁, hv₂⟩ := validProofTrace_append t₀ n₀ ops₁ ops₂ hvalid
  have hpast₁ := expiredPast_run t₀ n₀ ops₁ hpast hv₁
  have hdead : DeadInv (runProofOps t₀ ops₁) (timeAfter n₀ ops₁) id :=
    ⟨r₁, h₁, hpast₁ id r₁ h₁ hr₁, Or.inl hr₁⟩
  obtain ⟨r, hl, hst⟩ := deadInv_run _ _ id ops₂ hdead hv₂
  rw [runProofOps_append, hl] at h₂
  have : r₂ = r := (Option.some.inj h₂).symm
  subst this
  rcases hst with h | h <;> rw [h] <;> exact fun hc => ChStatus.noConfusion hc

/-- C6 witness: a concrete valid trace in which a challenge expires and a
later daemon failure mark leaves it unverified. -/
theorem expired_never_verified_witness :
    ({ status := ChStatus.failed, expiresAt := 90 } : ChRec).status ≠ ChStatus.verified :=
  expired_never_verified [] 0 [.create "a" 0, .sweep 200] [.daemonFail "a" 300] "a"
    ⟨.expired, 90⟩ ⟨.failed, 90⟩
    (fun id r h _ => absurd h (by simp [lookupCh, List.find?]))
    ⟨by decide, rfl, by decide, trivial, by decide, trivial, trivial⟩
    (by decide) rfl (by decide)

/-! ## Gateway request multiplexer (`gateway/src/p2p.rs`)

The event loop of `P2pNode::start` owns four pending maps keyed by
outbound request id (stores, retrievals, deletions, audits).  Entries are
inserted on dispatch with a deadline, and removed by a matching
`Response`, an `OutboundFailure`, or the once-per-second
`expire_pending_requests` sweep; each removal sends one acknowledgement
into the caller's oneshot — except in one branch: a pending *deletion*
whose response is not a `Delete` reply variant is removed from
`pending_deletions` without any send (the `if let ChunkReply::Delete`
has no `else` arm, unlike the retrieval/store/audit branches).  The model
tracks the sends in `acks` and records that silent branch in the ghost
field `dropped`. -/

/-- The `ChunkReply` variant carried by a response (or the request kind at
registration). -/
inductive ReplyKind where
  | store
  | retrieve
  | delete
  | audit
deriving DecidableEq, Repr

/-- Multiplexer state: the four pending maps (request id, deadline), the
log of acknowledgements sent (one entry per oneshot send), the ghost log
of entries removed without an acknowledgement, and the next fresh request
id. -/
structure MuxState where
  pendingStores : List (Nat × Nat)
  pendingRetrievals : List (Nat × Nat)
  pendingDeletions : List (Nat × Nat)
  pendingAudits : List (Nat × Nat)
  acks : List Nat
  dropped : List Nat
  nextId : Nat
deriving DecidableEq, Repr

/-- An event observed by the multiplexer loop. -/
inductive MuxEvent where
  | register (kind : ReplyKind) (deadline : Nat)
  | response (id : Nat) (kind : ReplyKind)
  | outboundFailure (id : Nat)
  | tick (now : Nat)

/-- `HashMap::contains_key`. -/
def memKeys (l : List (Nat × Nat)) (id : Nat) : Bool :=
  l.any (fun e => e.1 == id)

/-- `HashMap::remove`. -/
def removeId (l : List (Nat × Nat)) (id : Nat) : List (Nat × Nat) :=
  l.filter (fun e => !(e.1 == id))

/-- Request ids of the entries past their deadline (`deadline <= now`). -/
def expiredIds (l : List (Nat × Nat)) (now : Nat) : List Nat :=
  (l.filter (fun e => e.2 ≤ now)).map Prod.fst

/-- Entries kept by the expiry sweep. -/
def keptEntries (l : List (Nat × Nat)) (now : Nat) : List (Nat × Nat) :=
  l.filter (fun e => !(decide (e.2 ≤ now)))

/-- The `pending_retrievals` arm of the `OutboundFailure` handler: remove
and acknowledge the entry when present. -/
def failRetr (s : MuxState) (id : Nat) : MuxState :=
  if memKeys s.pendingRetrievals id then
    { s with pendingRetrievals := removeId s.pendingRetrievals id, acks := id :: s.acks }
  else s

/-- The `pending_deletions` arm of the `OutboundFailure` handler. -/
def failDel (s : MuxState) (id : Nat) : MuxState :=
  if memKeys s.pendingDeletions id then
    { s with pendingDeletions := removeId s.pendingDeletions id, acks := id :: s.acks }
  else s

/-- The `pending_stores` arm of the `OutboundFailure` handler. -/
def failStore (s : MuxState) (id : Nat) : MuxState :=
  if memKeys s.pendingStores id then
    { s with pendingStores := removeId s.pendingStores id, acks := id :: s.acks }
  else s

/-- The `pending_audits` arm of the `OutboundFailure` handler. -/
def failAudit (s : MuxState) (id : Nat) : MuxState :=
  if memKeys s.pendingAudits id then
    { s with pendingAudits := removeId s.pendingAudits id, acks := id :: s.acks }
  else s

/-- One step of the `P2pNode::start` event loop. -/
def stepMux (s : MuxState) : MuxEvent → MuxState
  | .register kind dl =>
    match kind with
    | .store =>
      { s with pendingStores := (s.nextId, dl) :: s.pendingStores, nextId := s.nextId + 1 }
    | .retrieve =>
      { s with pendingRetrievals := (s.nextId, dl) :: s.pendingRetrievals
               nextId := s.nextId + 1 }
    | .delete =>
      { s with pendingDeletions := (s.nextId, dl) :: s.pendingDeletions
               nextId := s.nextId + 1 }
    | .audit =>
      { s with pendingAudits := (s.nextId, dl) :: s.pendingAudits, nextId := s.nextId + 1 }
  | .response id kind =>
    if memKeys s.pendingRetrievals id then
      { s with pendingRetrievals := removeId s.pendingRetrievals id, acks := id :: s.acks }
    else if memKeys s.pendingDeletions id then
      if kind == .delete then
        { s with pendingDeletions := removeId s.pendingDeletions id, acks := id :: s.acks }
      else
        { s with pendingDeletions := removeId s.pendingDeletions id
                 dropped := id :: s.dropped }
    else if memKeys s.pendingStores id then
      { s with pendingStores := removeId s.pendingStores id, acks := id :: s.acks }
    else if memKeys s.pendingAudits id then
      { s with pendingAudits := removeId s.pendingAudits id, acks := id :: s.acks }
    else s
  | .outboundFailure id =>
    failAudit (failStore (failDel (failRetr s id) id) id) id
  | .tick now =>
    { s with
      pendingRetrievals := keptEntries s.pendingRetrievals now
      pendingDeletions := keptEntries s.pendingDeletions now
      pendingStores := keptEntries s.pendingStores now
      pendingAudits := keptEntries s.pendingAudits now
      acks := expiredIds s.pendingAudits now ++ expiredIds s.pendingStores now ++
        expiredIds s.pendingDeletions now ++ expiredIds s.pendingRetrievals now ++ s.acks }

/-- The empty multiplexer. -/
def initMux : MuxState :=
  { pendingStores := [], pendingRetrievals := [], pendingDeletions := []
    pendingAudits := [], acks := [], dropped := [], nextId := 0 }

/-- Run the loop over a list of events. -/
def runMux : List MuxEvent → MuxState → MuxState
  | [], s => s
  | ev :: rest, s => runMux rest (stepMux s ev)

/-- Whether a request id is pending in any of the four maps. -/
def pendingIn (s : MuxState) (id : Nat) : Bool :=
  memKeys s.pendingRetrievals id || memKeys s.pendingDeletions id ||
    memKeys s.pendingStores id || memKeys s.pendingAudits id

/-- Number of entries with the given key. -/
def countK (l : List (Nat × Nat)) (id : Nat) : Nat :=
  l.countP (fun e => e.1 == id)

theorem countK_removeId_self (l : List (Nat × Nat)) (id : Nat) :
    countK (removeId l id) id = 0 := by
  induction l with
  | nil => rfl
  | cons e rest ih =>
    by_cases he : (e.1 == id) = true
    · simp only [countK, removeId, List.filter, he, Bool.not_true]
      exact ih
    · rw [Bool.not_eq_true] at he
      simp only [countK, removeId, List.filter, he, Bool.not_false, List.countP_cons, he]
      simp only [countK, removeId] at ih
      simp [ih]

theorem countK_removeId_ne (l : List (Nat × Nat)) (id j : Nat) (h : j ≠ id) :
    countK (removeId l id) j = countK l j := by
  induction l with
  | nil => rfl
  | cons e rest ih =>
    by_cases he : (e.1 == id) = true
    · have hej : (e.1 == j) = false := by
        have h1 : e.1 = id := by simpa using he
        simp only [h1, beq_eq_false_iff_ne, ne_eq]
        omega
      simp only [countK, removeId, List.filter, he, Bool.not_true, List.countP_cons, hej]
      simp only [countK, removeId] at ih
      simp [ih]
    · rw [Bool.not_eq_true] at he
      simp only [countK, removeId, List.filter, he, Bool.not_false, List.countP_cons]
      have := ih
      simp only [countK, removeId] at this
      omega

theorem memKeys_iff_countK (l : List (Nat × Nat)) (id : Nat) :
    memKeys l id = true ↔ 1 ≤ countK l id := by
  induction l with
  | nil => simp [memKeys, countK]
  | cons e rest ih =>
    by_cases he : (e.1 == id) = true
    · simp [memKeys, countK, List.countP_cons, he]
    · rw [Bool.not_eq_true] at he
      simp only [memKeys, List.any_cons, he, Bool.false_or, countK, List.countP_cons,
        Bool.false_eq_true, if_false, Nat.add_zero]
      simp only [memKeys, countK] at ih
      exact ih

theorem memKeys_false_countK (l : List (Nat × Nat)) (id : Nat)
    (h : memKeys l id = false) : countK l id = 0 := by
  by_cases hc : 1 ≤ countK l id
  · rw [(memKeys_iff_countK l id).mpr hc] at h
    exact Bool.noConfusion h
  · omega

theorem count_map_fst (l : List (Nat × Nat)) (j : Nat) :
    (l.map Prod.fst).count j = countK l j := by
  induction l with
  | nil => rfl
  | cons e rest ih =>
    simp only [List.map_cons, List.count_cons, countK, List.countP_cons, ih]

theorem countK_partition (l : List (Nat × Nat)) (j : Nat) (p : Nat × Nat → Bool) :
    countK l j = countK (l.filter p) j + countK (l.filter (fun e => !(p e))) j := by
  induction l with
  | nil => rfl
  | cons e rest ih =>
    by_cases hp : p e = true
    · simp only [List.filter, hp, Bool.not_true, countK, List.countP_cons]
      simp only [countK] at ih
      omega
    · rw [Bool.not_eq_true] at hp
      simp only [List.filter, hp, Bool.not_false, countK, List.countP_cons]
      simp only [countK] at ih
      omega

/-- Total number of pending entries with the given request id. -/
def keyTotal (s : MuxState) (id : Nat) : Nat :=
  countK s.pendingStores id + countK s.pendingRetrievals id +
    countK s.pendingDeletions id + countK s.pendingAudits id

/-- The bookkeeping invariant: every request id below `nextId` is
accounted for exactly once — pending, acknowledged, or dropped — and no
other id appears anywhere. -/
def MuxInv (s : MuxState) : Prop :=
  ∀ id, keyTotal s id + s.acks.count id + s.dropped.count id =
    if id < s.nextId then 1 else 0

theorem countK_cons (a b j : Nat) (l : List (Nat × Nat)) :
    countK ((a, b) :: l) j = countK l j + if a = j then 1 else 0 := by
  by_cases h : a = j <;> simp [countK, List.countP_cons, h]

theorem natCount_cons (a j : Nat) (l : List Nat) :
    (a :: l).count j = l.count j + if a = j then 1 else 0 := by
  by_cases h : a = j <;> simp [List.count_cons, h]

theorem countK_zero_memKeys (l : List (Nat × Nat)) (id : Nat)
    (h : countK l id = 0) : memKeys l id = false := by
  cases hm : memKeys l id with
  | false => rfl
  | true =>
    have := (memKeys_iff_countK l id).mp hm
    omega

theorem expiredIds_count (l : List (Nat × Nat)) (now j : Nat) :
    (expiredIds l now).count j = countK (l.filter (fun e => decide (e.2 ≤ now))) j := by
  unfold expiredIds
  exact count_map_fst _ j

theorem muxInv_failRetr (s : MuxState) (id : Nat) (h : MuxInv s) :
    MuxInv (failRetr s id) := by
  intro j
  unfold failRetr
  by_cases h1 : memKeys s.pendingRetrievals id = true
  · rw [if_pos h1]
    show countK s.pendingStores j + countK (removeId s.pendingRetrievals id) j +
        countK s.pendingDeletions j + countK s.pendingAudits j +
        (id :: s.acks).count j + s.dropped.count j = if j < s.nextId then 1 else 0
    have hold := h j
    have holdid := h id
    have hge := (memKeys_iff_countK _ _).mp h1
    rw [natCount_cons]
    by_cases hj : j = id
    · subst hj
      rw [countK_removeId_self]
      simp only [keyTotal] at hold
      simp only [eq_self_iff_true, if_true]
      have hle : (if j < s.nextId then 1 else 0 : Nat) ≤ 1 := by split <;> omega
      omega
    · rw [countK_removeId_ne _ _ _ hj]
      simp only [keyTotal] at hold
      rw [if_neg (fun hc => hj hc.symm)]
      omega
  · rw [if_neg h1]
    exact h j

theorem muxInv_failDel (s : MuxState) (id : Nat) (h : MuxInv s) :
    MuxInv (failDel s id) := by
  intro j
  unfold failDel
  by_cases h1 : memKeys s.pendingDeletions id = true
  · rw [if_pos h1]
    show countK s.pendingStores j + countK s.pendingRetrievals j +
        countK (removeId s.pendingDeletions id) j + countK s.pendingAudits j +
        (id :: s.acks).count j + s.dropped.count j = if j < s.nextId then 1 else 0
    have hold := h j
    have holdid := h id
    have hge := (memKeys_iff_countK _ _).mp h1
    rw [natCount_cons]
    by_cases hj : j = id
    · subst hj
      rw [countK_removeId_self]
      simp only [keyTotal] at hold
      simp only [eq_self_iff_true, if_true]
      have hle : (if j < s.nextId then 1 else 0 : Nat) ≤ 1 := by split <;> omega
      omega
    · rw [countK_removeId_ne _ _ _ hj]
      simp only [keyTotal] at hold
      rw [if_neg (fun hc => hj hc.symm)]
      omega
  · rw [if_neg h1]
    exact h j

theorem muxInv_failStore (s : MuxState) (id : Nat) (h : MuxInv s) :
    MuxInv (failStore s id) := by
  intro j
  unfold failStore
  by_cases h1 : memKeys s.pendingStores id = true
  · rw [if_pos h1]
    show countK (removeId s.pendingStores id) j + countK s.pendingRetrievals j +
        countK s.pendingDeletions j + countK s.pendingAudits j +
        (id :: s.acks).count j + s.dropped.count j = if j < s.nextId then 1 else 0
    have hold := h j
    have holdid := h id
    have hge := (memKeys_iff_countK _ _).mp h1
    rw [natCount_cons]
    by_cases hj : j = id
    · subst hj
      rw [countK_removeId_self]
      simp only [keyTotal] at hold
      simp only [eq_self_iff_true, if_true]
      have hle : (if j < s.nextId then 1 else 0 : Nat) ≤ 1 := by split <;> omega
      omega
    · rw [countK_removeId_ne _ _ _ hj]
      simp only [keyTotal] at hold
      rw [if_neg (fun hc => hj hc.symm)]
      omega
  · rw [if_neg h1]
    exact h j

theorem muxInv_failAudit (s : MuxState) (id : Nat) (h : MuxInv s) :
    MuxInv (failAudit s id) := by
  intro j
  unfold failAudit
  by_cases h1 : memKeys s.pendingAudits id = true
  · rw [if_pos h1]
    show countK s.pendingStores j + countK s.pendingRetrievals j +
        countK s.pendingDeletions j + countK (removeId s.pendingAudits id) j +
        (id :: s.acks).count j + s.dropped.count j = if j < s.nextId then 1 else 0
    have hold := h j
    have holdid := h id
    have hge := (memKeys_iff_countK _ _).mp h1
    rw [natCount_cons]
    by_cases hj : j = id
    · subst hj
      rw [countK_removeId_self]
      simp only [keyTotal] at hold
      simp only [eq_self_iff_true, if_true]
      have hle : (if j < s.nextId then 1 else 0 : Nat) ≤ 1 := by split <;> omega
      omega
    · rw [countK_removeId_ne _ _ _ hj]
      simp only [keyTotal] at hold
      rw [if_neg (fun hc => hj hc.symm)]
      omega
  · rw [if_neg h1]
    exact h j

theorem stepMux_response_eq (s : MuxState) (id : Nat) (kind : ReplyKind) :
    stepMux s (.response id kind) =
      if memKeys s.pendingRetrievals id then
        { s with pendingRetrievals := removeId s.pendingRetrievals id, acks := id :: s.acks }
      else if memKeys s.pendingDeletions id then
        (if kind == .delete then
          { s with pendingDeletions := removeId s.pendingDeletions id, acks := id :: s.acks }
        else
          { s with pendingDeletions := removeId s.pendingDeletions id
                   dropped := id :: s.dropped })
      else if memKeys s.pendingStores id then
        { s with pendingStores := removeId s.pendingStores id, acks := id :: s.acks }
      else if memKeys s.pendingAudits id then
        { s with pendingAudits := removeId s.pendingAudits id, acks := id :: s.acks }
      else s := rfl

theorem muxInv_step (s : MuxState) (ev : MuxEvent) (h : MuxInv s) :
    MuxInv (stepMux s ev) := by
  cases ev with
  | register kind dl =>
    cases kind with
    | store =>
      intro j
      show countK ((s.nextId, dl) :: s.pendingStores) j + countK s.pendingRetrievals j +
          countK s.pendingDeletions j + countK s.pendingAudits j +
          s.acks.count j + s.dropped.count j = if j < s.nextId + 1 then 1 else 0
      have hold := h j
      simp only [keyTotal] at hold
      rw [countK_cons]
      by_cases hj : s.nextId = j
      · subst hj
        simp only [eq_self_iff_true, if_true]
        rw [if_neg (lt_irrefl s.nextId)] at hold
        rw [if_pos (Nat.lt_succ_self s.nextId)]
        omega
      · rw [if_neg hj]
        by_cases hlt : j < s.nextId
        · rw [if_pos hlt] at hold
          rw [if_pos (Nat.lt_succ_of_lt hlt)]
          omega
        · rw [if_neg hlt] at hold
          rw [if_neg (by omega : ¬ j < s.nextId + 1)]
          omega
    | retrieve =>
      intro j
      show countK s.pendingStores j + countK ((s.nextId, dl) :: s.pendingRetrievals) j +
          countK s.pendingDeletions j + countK s.pendingAudits j +
          s.acks.count j + s.dropped.count j = if j < s.nextId + 1 then 1 else 0
      have hold := h j
      simp only [keyTotal] at hold
      rw [countK_cons]
      by_cases hj : s.nextId = j
      · subst hj
        simp only [eq_self_iff_true, if_true]
        rw [if_neg (lt_irrefl s.nextId)] at hold
        rw [if_pos (Nat.lt_succ_self s.nextId)]
        omega
      · rw [if_neg hj]
        by_cases hlt : j < s.nextId
        · rw [if_pos hlt] at hold
          rw [if_pos (Nat.lt_succ_of_lt hlt)]
          omega
        · rw [if_neg hlt] at hold
          rw [if_neg (by omega : ¬ j < s.nextId + 1)]
          omega
    | delete =>
      intro j
      show countK s.pendingStores j + countK s.pendingRetrievals j +
          countK ((s.nextId, dl) :: s.pendingDeletions) j + countK s.pendingAudits j +
          s.acks.count j + s.dropped.count j = if j < s.nextId + 1 then 1 else 0
      have hold := h j
      simp only [keyTotal] at hold
      rw [countK_cons]
      by_cases hj : s.nextId = j
      · subst hj
        simp only [eq_self_iff_true, if_true]
        rw [if_neg (lt_irrefl s.nextId)] at hold
        rw [if_pos (Nat.lt_succ_self s.nextId)]
        omega
      · rw [if_neg hj]
        by_cases hlt : j < s.nextId
        · rw [if_pos hlt] at hold
          rw [if_pos (Nat.lt_succ_of_lt hlt)]
          omega
        · rw [if_neg hlt] at hold
          rw [if_neg (by omega : ¬ j < s.nextId + 1)]
          omega
    | audit =>
      intro j
      show countK s.pendingStores j + countK s.pendingRetrievals j +
          countK s.pendingDeletions j + countK ((s.nextId, dl) :: s.pendingAudits) j +
          s.acks.count j + s.dropped.count j = if j < s.nextId + 1 then 1 else 0
      have hold := h j
      simp only [keyTotal] at hold
      rw [countK_cons]
      by_cases hj : s.nextId = j
      · subst hj
        simp only [eq_self_iff_true, if_true]
        rw [if_neg (lt_irrefl s.nextId)] at hold
        rw [if_pos (Nat.lt_succ_self s.nextId)]
        omega
      · rw [if_neg hj]
        by_cases hlt : j < s.nextId
        · rw [if_pos hlt] at hold
          rw [if_pos (Nat.lt_succ_of_lt hlt)]
          omega
        · rw [if_neg hlt] at hold
          rw [if_neg (by omega : ¬ j < s.nextId + 1)]
          omega
  | response id kind =>
    rw [stepMux_response_eq]
    by_cases h1 : memKeys s.pendingRetrievals id = true
    · rw [if_pos h1]
      have : failRetr s id =
          { s with pendingRetrievals := removeId s.pendingRetrievals id
                   acks := id :: s.acks } := by
        unfold failRetr
        rw [if_pos h1]
      rw [← this]
      exact muxInv_failRetr s id h
    · rw [if_neg h1]
      by_cases h2 : memKeys s.pendingDeletions id = true
      · rw [if_pos h2]
        by_cases hk : (kind == ReplyKind.delete) = true
        · rw [if_pos hk]
          have : failDel s id =
              { s with pendingDeletions := removeId s.pendingDeletions id
                       acks := id :: s.acks } := by
            unfold failDel
            rw [if_pos h2]
          rw [← this]
          exact muxInv_failDel s id h
        · rw [if_neg hk]
          intro j
          show countK s.pendingStores j + countK s.pendingRetrievals j +
              countK (removeId s.pendingDeletions id) j + countK s.pendingAudits j +
              s.acks.count j + (id :: s.dropped).count j = if j < s.nextId then 1 else 0
          have hold := h j
          have holdid := h id
          have hge := (memKeys_iff_countK _ _).mp h2
          rw [natCount_cons]
          by_cases hj : j = id
          · subst hj
            rw [countK_removeId_self]
            simp only [keyTotal] at hold
            simp only [eq_self_iff_true, if_true]
            have hle : (if j < s.nextId then 1 else 0 : Nat) ≤ 1 := by split <;> omega
            omega
          · rw [countK_removeId_ne _ _ _ hj]
            simp only [keyTotal] at hold
            rw [if_neg (fun hc => hj hc.symm)]
            omega
      · rw [if_neg h2]
        by_cases h3 : memKeys s.pendingStores id = true
        · rw [if_pos h3]
          have : failStore s id =
              { s with pendingStores := removeId s.pendingStores id
                       acks := id :: s.acks } := by
            unfold failStore
            rw [if_pos h3]
          rw [← this]
          exact muxInv_failStore s id h
        · rw [if_neg h3]
          by_cases h4 : memKeys s.pendingAudits id = true
          · rw [if_pos h4]
            have : failAudit s id =
                { s with pendingAudits := removeId s.pendingAudits id
                         acks := id :: s.acks } := by
              unfold failAudit
              rw [if_pos h4]
            rw [← this]
            exact muxInv_failAudit s id h
          · rw [if_neg h4]
            exact h
  | outboundFailure id =>
    exact muxInv_failAudit _ id (muxInv_failStore _ id (muxInv_failDel _ id
      (muxInv_failRetr s id h)))
  | tick now =>
    intro j
    show countK (keptEntries s.pendingStores now) j +
        countK (keptEntries s.pendingRetrievals now) j +
        countK (keptEntries s.pendingDeletions now) j +
        countK (keptEntries s.pendingAudits now) j +
        (expiredIds s.pendingAudits now ++ expiredIds s.pendingStores now ++
          expiredIds s.pendingDeletions now ++ expiredIds s.pendingRetrievals now ++
          s.acks).count j + s.dropped.count j = if j < s.nextId then 1 else 0
    have hold := h j
    simp only [keyTotal] at hold
    simp only [List.count_append, expiredIds_count]
    have hS := countK_partition s.pendingStores j (fun e => decide (e.2 ≤ now))
    have hR := countK_partition s.pendingRetrievals j (fun e => decide (e.2 ≤ now))
    have hD := countK_partition s.pendingDeletions j (fun e => decide (e.2 ≤ now))
    have hA := countK_partition s.pendingAudits j (fun e => decide (e.2 ≤ now))
    unfold keptEntries
    omega

/-- `runMux` preserves the bookkeeping invariant. -/
theorem muxInv_run (evs : List MuxEvent) (s : MuxState) (h : MuxInv s) :
    MuxInv (runMux evs s) := by
  induction evs generalizing s with
  | nil => exact h
  | cons ev rest ih => exact ih _ (muxInv_step s ev h)

theorem muxInv_init : MuxInv initMux := by
  intro id
  simp [initMux, keyTotal, countK]

theorem pendingIn_false_countK (s : MuxState) (id : Nat) (h : pendingIn s id = false) :
    keyTotal s id = 0 := by
  unfold pendingIn at h
  simp only [Bool.or_eq_false_iff] at h
  unfold keyTotal
  rw [memKeys_false_countK _ _ h.1.1.1, memKeys_false_countK _ _ h.1.1.2,
    memKeys_false_countK _ _ h.1.2, memKeys_false_countK _ _ h.2]

theorem pendingIn_true_countK (s : MuxState) (id : Nat) (h : pendingIn s id = true) :
    1 ≤ keyTotal s id := by
  unfold pendingIn at h
  simp only [Bool.or_eq_true_iff] at h
  unfold keyTotal
  rcases h with ((h | h) | h) | h <;> have := (memKeys_iff_countK _ _).mp h <;> omega

/-- C7 (amended): in every reachable multiplexer state, each request id is
acknowledged at most once; an id still pending has received no
acknowledgement; and a registered id that is no longer pending has
received exactly one acknowledgement — unless it was a pending deletion
removed by a mismatched reply variant, in which case it received none and
is recorded as dropped. -/
theorem mux_exactly_one_ack (evs : List MuxEvent) (id : Nat) :
    (runMux evs initMux).acks.count id ≤ 1 ∧
      (pendingIn (runMux evs initMux) id = true →
        (runMux evs initMux).acks.count id = 0 ∧
          (runMux evs initMux).dropped.count id = 0) ∧
      (id < (runMux evs initMux).nextId → pendingIn (runMux evs initMux) id = false →
        ((runMux evs initMux).acks.count id = 1 ∧
            (runMux evs initMux).dropped.count id = 0) ∨
          ((runMux evs initMux).acks.count id = 0 ∧
            (runMux evs initMux).dropped.count id = 1)) := by
  have hinv := muxInv_run evs initMux muxInv_init
  have hbal := hinv id
  refine ⟨?_, ?_, ?_⟩
  · by_cases hlt : id < (runMux evs initMux).nextId
    · rw [if_pos hlt] at hbal
      omega
    · rw [if_neg hlt] at hbal
      omega
  · intro hp
    have := pendingIn_true_countK _ id hp
    by_cases hlt : id < (runMux evs initMux).nextId
    · rw [if_pos hlt] at hbal
      omega
    · rw [if_neg hlt] at hbal
      omega
  · intro hlt hp
    have hz := pendingIn_false_countK _ id hp
    rw [if_pos hlt] at hbal
    omega

/-- The trace refuting the naive claim: a deletion is registered, and the
response that arrives for its request id carries a `Store` reply variant. -/
def muxCounterTrace : List MuxEvent :=
  [.register .delete 100, .response 0 .store]

/-- C7 counterexample: after `muxCounterTrace` the registered deletion
(request id 0) has been removed from every pending map, yet zero
acknowledgements were ever sent, refuting the claim that no pending entry
is removed without an acknowledgement. -/
theorem mux_delete_mismatch_no_ack :
    0 < (runMux muxCounterTrace initMux).nextId ∧
      pendingIn (runMux muxCounterTrace initMux) 0 = false ∧
      (runMux muxCounterTrace initMux).acks.count 0 = 0 := by
  decide

/-- C7 witness: the amended statement instantiated on a concrete trace in
which a store request is registered and answered; its id is acknowledged
exactly once. -/
theorem mux_exactly_one_ack_witness :
    ((runMux [.register .store 5, .response 0 .store] initMux).acks.count 0 = 1 ∧
        (runMux [.register .store 5, .response 0 .store] initMux).dropped.count 0 = 0) ∨
      ((runMux [.register .store 5, .response 0 .store] initMux).acks.count 0 = 0 ∧
        (runMux [.register .store 5, .response 0 .store] initMux).dropped.count 0 = 1) :=
  (mux_exactly_one_ack [.register .store 5, .response 0 .store] 0).2.2
    (by decide) (by decide)

/-! ## Client SDK pipeline (`client-sdk/src/lib.rs`)

`process_bytes` chunks the input, AES-GCM-encrypts each chunk under an
Argon2-derived key, Reed-Solomon-encodes `nonce || ciphertext` into
`data_shards + parity_shards` content-addressed shards, and records the
salt and the Merkle manifest root.  `reconstruct_bytes` groups shards by
chunk index (a `BTreeMap`, so ascending order), verifies each shard's CID,
completes each chunk with the erasure decoder, truncates to
`payload_len`, splits off the 12-byte nonce, and decrypts.

Randomness is passed explicitly: the salt string, and a nonce for each
chunk index.  The external coder is `Prims.rsEncode` / `Prims.rsReconstruct`:
`erasure_encode`'s zero-filled shard allocation and payload copy are the
model's `splitPad`, and the coder maps the `data_shards` padded pieces to
the full shard vector.  Error names follow the spec taxonomy. -/

/-- `process_bytes` failures (`validate_cfg` and encryption). -/
inductive PipeError where
  | chunkSize
  | dataShardsTooFew
  | parityShardsTooFew
  | encryptFail
deriving DecidableEq, Repr

/-- `reconstruct_bytes` failures. -/
inductive RecError where
  | badSalt
  | insufficientShards
  | cidMismatch
  | rsDecode
  | reconstructIncomplete
  | payloadTooShort
  | decrypt
deriving DecidableEq, Repr

/-- `PipelineConfig`. -/
structure PipelineConfig where
  chunkSize : Nat
  dataShards : Nat
  parityShards : Nat
deriving DecidableEq, Repr

/-- `PipelineOutput`. -/
structure PipelineOutput where
  salt : String
  shards : List Shard
  manifestRoot : String
  totalBytes : Nat
  chunkCount : Nat
deriving DecidableEq, Repr

/-- Rust `slice::chunks` with explicit fuel (the slice length always
suffices for a positive chunk size): an empty slice yields no chunks. -/
def listChunksAux (k : Nat) : Nat → List Nat → List (List Nat)
  | 0, _ => []
  | fuel + 1, xs =>
    if xs.isEmpty then [] else xs.take k :: listChunksAux k fuel (xs.drop k)

/-- Rust `slice::chunks`; `chunks(0)` panics in Rust and is rendered as no
chunks here, guarded by `validate_cfg`. -/
def listChunks (xs : List Nat) (k : Nat) : List (List Nat) :=
  if k = 0 then [] else listChunksAux k xs.length xs

/-- `shard_len`: `payload.len().div_ceil(data_shards)`. -/
def shardLenOf (payloadLen d : Nat) : Nat := (payloadLen + d - 1) / d

/-- Zero-pad to the shard length (shards are allocated zero-filled and the
payload pieces are copied over). -/
def padTo (xs : List Nat) (n : Nat) : List Nat := xs ++ List.replicate (n - xs.length) 0

/-- The `data_shards` zero-padded payload pieces fed to the coder. -/
def splitPad (payload : List Nat) (d : Nat) : List (List Nat) :=
  (List.range d).map (fun i =>
    padTo ((payload.drop (i * shardLenOf payload.length d)).take (shardLenOf payload.length d))
      (shardLenOf payload.length d))

/-- The shard records of one chunk: index, CID over the shard bytes, the
payload length and the coder geometry. -/
def mkChunkShards (P : Prims) (d p i payloadLen : Nat) (F : List (List Nat)) : List Shard :=
  F.enum.map (fun e =>
    { chunkIndex := i, shardIndex := e.1, cid := P.sha256hex e.2, bytes := e.2,
      payloadLen := payloadLen, dataShards := d, parityShards := p })

/-- Encrypt one chunk and erasure-encode `nonce || ciphertext`. -/
def encodeChunk (P : Prims) (key nonce : List Nat) (d p i : Nat) (chunk : List Nat) :
    Except PipeError (List Shard) :=
  match P.aeadEnc key nonce chunk with
  | none => .error .encryptFail
  | some ct =>
    .ok (mkChunkShards P d p i (12 + ct.length)
      (P.rsEncode d p (splitPad (nonce ++ ct) d)))

/-- Process the enumerated chunks in order. -/
def buildShards (P : Prims) (key : List Nat) (nr : Nat → List Nat) (d p : Nat) :
    List (Nat × List Nat) → Except PipeError (List Shard)
  | [] => .ok []
  | (i, c) :: rest =>
    match encodeChunk P key (nr i) d p i c with
    | .error e => .error e
    | .ok s =>
      match buildShards P key nr d p rest with
      | .error e => .error e
      | .ok r => .ok (s ++ r)

/-- `process_bytes`: validate, derive the key, then chunk, encrypt and
encode. -/
def process_bytes (P : Prims) (nr : Nat → List Nat) (salt : String)
    (input : List Nat) (password : String) (cfg : PipelineConfig) :
    Except PipeError PipelineOutput :=
  if cfg.chunkSize = 0 then .error .chunkSize
  else if cfg.dataShards < 2 then .error .dataShardsTooFew
  else if cfg.parityShards < 1 then .error .parityShardsTooFew
  else
    match buildShards P (P.deriveKey password salt) nr cfg.dataShards cfg.parityShards
      (listChunks input cfg.chunkSize).enum with
    | .error e => .error e
    | .ok shardsOut =>
      .ok { salt := salt, shards := shardsOut
            manifestRoot := merkle_root P (shardsOut.map Shard.cid)
            totalBytes := input.length
            chunkCount := (listChunks input cfg.chunkSize).length }

/-- The slot-filling loop of `reconstruct_bytes`: indices beyond the shard
count are skipped, a CID mismatch aborts, later shards overwrite earlier
slots. -/
def fillSlots (P : Prims) : List Shard → List (Option (List Nat)) →
    Except RecError (List (Option (List Nat)))
  | [], acc => .ok acc
  | s :: rest, acc =>
    if acc.length ≤ s.shardIndex then fillSlots P rest acc
    else if P.sha256hex s.bytes ≠ s.cid then .error .cidMismatch
    else fillSlots P rest (acc.set s.shardIndex (some s.bytes))

/-- Read the reconstructed data slots, failing on a missing one. -/
def extractData : List (Option (List Nat)) → Except RecError (List (List Nat))
  | [] => .ok []
  | none :: _ => .error .reconstructIncomplete
  | some b :: rest =>
    match extractData rest with
    | .error e => .error e
    | .ok r => .ok (b :: r)

/-- Reconstruct one chunk from its shard group. -/
def reconstructChunk (P : Prims) (key : List Nat) (group : List Shard) :
    Except RecError (List Nat) :=
  match group with
  | [] => .ok []
  | first :: _ =>
    if group.length < first.dataShards then .error .insufficientShards
    else
      match fillSlots P group
        (List.replicate (first.dataShards + first.parityShards) none) with
      | .error e => .error e
      | .ok slots =>
        match P.rsReconstruct first.dataShards first.parityShards slots with
        | none => .error .rsDecode
        | some completed =>
          match extractData (completed.take first.dataShards) with
          | .error e => .error e
          | .ok parts =>
            let payload := parts.flatten.take first.payloadLen
            if payload.length < 12 then .error .payloadTooShort
            else
              match P.aeadDec key (payload.take 12) (payload.drop 12) with
              | some plain => .ok plain
              | none => .error .decrypt

/-- Largest chunk index among the shards. -/
def maxChunkIndex (shards : List Shard) : Nat :=
  shards.foldr (fun s acc => max s.chunkIndex acc) 0

/-- The `BTreeMap` keys in ascending order: the chunk indices present. -/
def groupKeys (shards : List Shard) : List Nat :=
  (List.range (maxChunkIndex shards + 1)).filter
    (fun c => shards.any (fun s => s.chunkIndex == c))

/-- Reconstruct the groups in ascending key order and concatenate. -/
def reconstructGroups (P : Prims) (key : List Nat) (shards : List Shard) :
    List Nat → Except RecError (List Nat)
  | [] => .ok []
  | c :: rest =>
    match reconstructChunk P key (shards.filter (fun s => s.chunkIndex == c)) with
    | .error e => .error e
    | .ok chunk =>
      match reconstructGroups P key shards rest with
      | .error e => .error e
      | .ok r => .ok (chunk ++ r)

/-- `reconstruct_bytes`: empty input short-circuits, the salt must decode,
then each chunk group is reconstructed and decrypted in ascending order. -/
def reconstruct_bytes (P : Prims) (shards : List Shard) (password salt : String) :
    Except RecError (List Nat) :=
  if shards.isEmpty then .ok []
  else if ¬ P.saltDecodeOk salt then .error .badSalt
  else reconstructGroups P (P.deriveKey password salt) shards (groupKeys shards)

theorem listChunksAux_flatten (k : Nat) (hk : 0 < k) :
    ∀ (fuel : Nat) (xs : List Nat), xs.length ≤ fuel →
    (listChunksAux k fuel xs).flatten = xs := by
  intro fuel
  induction fuel with
  | zero =>
    intro xs h
    simp only [Nat.le_zero] at h
    rw [List.length_eq_zero] at h
    subst h
    rfl
  | succ fuel ih =>
    intro xs h
    unfold listChunksAux
    by_cases hx : xs.isEmpty
    · rw [if_pos hx]
      rw [List.isEmpty_iff_length_eq_zero, List.length_eq_zero] at hx
      rw [hx]
      rfl
    · rw [if_neg hx]
      have hlen : xs.length ≠ 0 := by
        intro h0
        exact hx (List.isEmpty_iff_length_eq_zero.mpr h0)
      rw [List.flatten_cons, ih (xs.drop k) (by simp only [List.length_drop]; omega)]
      exact List.take_append_drop k xs

theorem listChunks_flatten (xs : List Nat) (k : Nat) (hk : 0 < k) :
    (listChunks xs k).flatten = xs := by
  unfold listChunks
  rw [if_neg (by omega : ¬ k = 0)]
  exact listChunksAux_flatten k hk xs.length xs (le_refl _)

theorem listChunks_nil_iff (xs : List Nat) (k : Nat) (hk : 0 < k) :
    listChunks xs k = [] ↔ xs = [] := by
  constructor
  · intro h
    have := listChunks_flatten xs k hk
    rw [h] at this
    exact this.symm
  · intro h
    subst h
    unfold listChunks
    split <;> rfl

theorem le_mul_shardLen (len d : Nat) (hd : 0 < d) : len ≤ d * shardLenOf len d := by
  unfold shardLenOf
  have h1 := Nat.div_add_mod (len + d - 1) d
  have h2 := Nat.mod_lt (len + d - 1) hd
  omega

theorem padTo_flatten_take : ∀ (n : Nat) (xs : List Nat) (L : Nat),
    xs.length ≤ n * L →
    (((List.range n).map (fun i => padTo ((xs.drop (i * L)).take L) L)).flatten).take
      xs.length = xs := by
  intro n
  induction n with
  | zero =>
    intro xs L h
    simp only [Nat.zero_mul, Nat.le_zero] at h
    rw [List.length_eq_zero] at h
    subst h
    rfl
  | succ n ih =>
    intro xs L h
    rw [List.range_succ_eq_map, List.map_cons, List.map_map]
    have hfun : ((fun i => padTo ((xs.drop (i * L)).take L) L) ∘ Nat.succ) =
        (fun i => padTo (((xs.drop L).drop (i * L)).take L) L) := by
      funext i
      simp only [Function.comp]
      rw [List.drop_drop]
      rw [show L + i * L = Nat.succ i * L by rw [Nat.succ_mul]; omega]
    rw [hfun, List.flatten_cons]
    have hrec : xs.length - L ≤ n * L := by
      have hs : (n + 1) * L = n * L + L := Nat.succ_mul n L
      omega
    by_cases hL : xs.length ≤ L
    · have htk : xs.take L = xs := List.take_of_length_le hL
      rw [Nat.zero_mul, List.drop_zero, htk]
      unfold padTo
      rw [List.append_assoc]
      exact List.take_left xs _
    · push_neg at hL
      rw [Nat.zero_mul, List.drop_zero]
      have hlen : (xs.take L).length = L := by
        rw [List.length_take]
        omega
      have hpad : padTo (xs.take L) L = xs.take L := by
        unfold padTo
        rw [hlen]
        simp
      rw [hpad, List.take_append_eq_append_take, List.take_take, hlen]
      have hmin : min xs.length L = L := by omega
      rw [hmin]
      have hdl : (xs.drop L).length = xs.length - L := List.length_drop L xs
      have := ih (xs.drop L) L (by rw [hdl]; exact hrec)
      rw [hdl] at this
      rw [this]
      exact List.take_append_drop L xs

theorem splitPad_flatten_take (payload : List Nat) (d : Nat) (hd : 0 < d) :
    ((splitPad payload d).flatten).take payload.length = payload := by
  unfold splitPad
  exact padTo_flatten_take d payload (shardLenOf payload.length d)
    (le_mul_shardLen payload.length d hd)

theorem extractData_map_some (l : List (List Nat)) :
    extractData (l.map some) = .ok l := by
  induction l with
  | nil => rfl
  | cons b rest ih =>
    simp only [List.map_cons, extractData, ih]

theorem fillSlots_ok (P : Prims) : ∀ (group : List Shard) (acc : List (Option (List Nat))),
    (∀ s ∈ group, P.sha256hex s.bytes = s.cid) →
    ∃ slots, fillSlots P group acc = .ok slots := by
  intro group
  induction group with
  | nil => exact fun acc _ => ⟨acc, rfl⟩
  | cons s rest ih =>
    intro acc hcid
    unfold fillSlots
    by_cases hidx : acc.length ≤ s.shardIndex
    · rw [if_pos hidx]
      exact ih acc (fun x hx => hcid x (List.mem_cons_of_mem s hx))
    · rw [if_neg hidx, if_neg (by
        simp only [ne_eq, not_not]
        exact hcid s (List.mem_cons_self s rest))]
      exact ih _ (fun x hx => hcid x (List.mem_cons_of_mem s hx))

theorem mkChunkShards_mem (P : Prims) (d p i pl : Nat) (F : List (List Nat))
    (s : Shard) (hs : s ∈ mkChunkShards P d p i pl F) :
    s.chunkIndex = i ∧ s.dataShards = d ∧ s.parityShards = p ∧ s.payloadLen = pl ∧
      s.cid = P.sha256hex s.bytes := by
  unfold mkChunkShards at hs
  rw [List.mem_map] at hs
  obtain ⟨e, _, he⟩ := hs
  subst he
  exact ⟨rfl, rfl, rfl, rfl, rfl⟩

theorem mkChunkShards_filter_self (P : Prims) (d p i pl : Nat) (F : List (List Nat)) :
    (mkChunkShards P d p i pl F).filter (fun s => s.chunkIndex == i) =
      mkChunkShards P d p i pl F := by
  apply List.filter_eq_self.mpr
  intro s hs
  have := (mkChunkShards_mem P d p i pl F s hs).1
  simp [this]

theorem mkChunkShards_filter_ne (P : Prims) (d p i pl : Nat) (F : List (List Nat))
    (c : Nat) (hne : c ≠ i) :
    (mkChunkShards P d p i pl F).filter (fun s => s.chunkIndex == c) = [] := by
  apply List.filter_eq_nil_iff.mpr
  intro s hs
  have h1 := (mkChunkShards_mem P d p i pl F s hs).1
  simp only [h1, beq_iff_eq]
  omega

theorem buildShards_filter (P : Prims) (key : List Nat) (nr : Nat → List Nat) (d p : Nat) :
    ∀ (cs : List (List Nat)) (n : Nat) (res : List Shard),
    buildShards P key nr d p (List.enumFrom n cs) = .ok res →
    (∀ s ∈ res, n ≤ s.chunkIndex ∧ s.chunkIndex < n + cs.length) ∧
    (∀ j ch, cs.get? j = some ch →
      ∃ ct, P.aeadEnc key (nr (n + j)) ch = some ct ∧
        res.filter (fun s => s.chunkIndex == n + j) =
          mkChunkShards P d p (n + j) (12 + ct.length)
            (P.rsEncode d p (splitPad (nr (n + j) ++ ct) d))) := by
  intro cs
  induction cs with
  | nil =>
    intro n res hb
    have : res = [] := by
      simp only [List.enumFrom, buildShards] at hb
      exact (Except.ok.inj hb).symm
    subst this
    exact ⟨fun s hs => absurd hs (List.not_mem_nil s), fun j ch hj => by
      simp [List.get?] at hj⟩
  | cons ch cs ih =>
    intro n res hb
    rw [show List.enumFrom n (ch :: cs) = (n, ch) :: List.enumFrom (n + 1) cs from rfl] at hb
    unfold buildShards at hb
    cases henc : encodeChunk P key (nr n) d p n ch with
    | error e => rw [henc] at hb; exact Except.noConfusion hb
    | ok s =>
      rw [henc] at hb
      cases hrest : buildShards P key nr d p (List.enumFrom (n + 1) cs) with
      | error e => rw [hrest] at hb; exact Except.noConfusion hb
      | ok r =>
        rw [hrest] at hb
        have hres : res = s ++ r := (Except.ok.inj hb).symm
        subst hres
        obtain ⟨ihb, ihp⟩ := ih (n + 1) r hrest
        unfold encodeChunk at henc
        cases hct : P.aeadEnc key (nr n) ch with
        | none => rw [hct] at henc; exact Except.noConfusion henc
        | some ct =>
          rw [hct] at henc
          have hs : s = mkChunkShards P d p n (12 + ct.length)
              (P.rsEncode d p (splitPad (nr n ++ ct) d)) := (Except.ok.inj henc).symm
          constructor
          · intro x hx
            rw [List.mem_append] at hx
            rcases hx with hx | hx
            · rw [hs] at hx
              have := (mkChunkShards_mem P d p n _ _ x hx).1
              simp only [List.length_cons, this]
              omega
            · have := ihb x hx
              simp only [List.length_cons]
              omega
          · intro j ch2 hj
            cases j with
            | zero =>
              have hch : ch2 = ch := by
                simp only [List.get?] at hj
                exact (Option.some.inj hj).symm
              subst hch
              refine ⟨ct, by rw [Nat.add_zero]; exact hct, ?_⟩
              rw [List.filter_append]
              have h1 : s.filter (fun x => x.chunkIndex == n + 0) = s := by
                rw [Nat.add_zero, hs]
                exact mkChunkShards_filter_self P d p n _ _
              have h2 : r.filter (fun x => x.chunkIndex == n + 0) = [] := by
                apply List.filter_eq_nil_iff.mpr
                intro x hx
                have := (ihb x hx).1
                simp only [beq_iff_eq]
                omega
              rw [h1, h2, List.append_nil, Nat.add_zero, hs]
            | succ j2 =>
              have hj2 : cs.get? j2 = some ch2 := hj
              obtain ⟨ct2, hct2, hfil⟩ := ihp j2 ch2 hj2
              refine ⟨ct2, ?_, ?_⟩
              · rw [show n + (j2 + 1) = n + 1 + j2 by omega]
                exact hct2
              · rw [List.filter_append]
                have h1 : s.filter (fun x => x.chunkIndex == n + (j2 + 1)) = [] := by
                  rw [hs]
                  exact mkChunkShards_filter_ne P d p n _ _ _ (by omega)
                rw [h1, List.nil_append]
                rw [show n + (j2 + 1) = n + 1 + j2 by omega]
                exact hfil

theorem mem_le_maxChunkIndex (shards : List Shard) (s : Shard) (hs : s ∈ shards) :
    s.chunkIndex ≤ maxChunkIndex shards := by
  induction shards with
  | nil => exact absurd hs (List.not_mem_nil s)
  | cons x rest ih =>
    rw [List.mem_cons] at hs
    unfold maxChunkIndex
    simp only [List.foldr_cons]
    rcases hs with h | h
    · subst h
      exact le_max_left _ _
    · exact le_trans (ih h) (le_max_right _ _)

theorem maxChunkIndex_le (shards : List Shard) (m : Nat)
    (h : ∀ s ∈ shards, s.chunkIndex ≤ m) : maxChunkIndex shards ≤ m := by
  induction shards with
  | nil => exact Nat.zero_le m
  | cons x rest ih =>
    unfold maxChunkIndex
    simp only [List.foldr_cons]
    apply max_le (h x (List.mem_cons_self x rest))
    exact ih (fun s hs => h s (List.mem_cons_of_mem x hs))

theorem groupKeys_eq_range (S : List Shard) (cc : Nat) (hcc : 0 < cc)
    (hbound : ∀ s ∈ S, s.chunkIndex < cc)
    (hpresent : ∀ c, c < cc → (S.any (fun s => s.chunkIndex == c)) = true) :
    groupKeys S = List.range cc := by
  have hmax : maxChunkIndex S = cc - 1 := by
    apply le_antisymm
    · exact maxChunkIndex_le S (cc - 1) (fun s hs => by have := hbound s hs; omega)
    · have := hpresent (cc - 1) (by omega)
      rw [List.any_eq_true] at this
      obtain ⟨s, hsmem, hsc⟩ := this
      have heq : s.chunkIndex = cc - 1 := by simpa using hsc
      rw [← heq]
      exact mem_le_maxChunkIndex S s hsmem
  unfold groupKeys
  rw [hmax, show cc - 1 + 1 = cc by omega]
  apply List.filter_eq_self.mpr
  intro c hc
  rw [List.mem_range] at hc
  exact hpresent c hc

theorem reconstructChunk_cons (P : Prims) (key : List Nat) (first : Shard)
    (rest : List Shard) :
    reconstructChunk P key (first :: rest) =
      (if (first :: rest).length < first.dataShards then .error .insufficientShards
      else
        match fillSlots P (first :: rest)
          (List.replicate (first.dataShards + first.parityShards) none) with
        | .error e => .error e
        | .ok slots =>
          match P.rsReconstruct first.dataShards first.parityShards slots with
          | none => .error .rsDecode
          | some completed =>
            match extractData (completed.take first.dataShards) with
            | .error e => .error e
            | .ok parts =>
              let payload := parts.flatten.take first.payloadLen
              if payload.length < 12 then .error .payloadTooShort
              else
                match P.aeadDec key (payload.take 12) (payload.drop 12) with
                | some plain => .ok plain
                | none => .error .decrypt) := rfl

/-- Tracing `reconstruct_bytes` through one chunk group: when the group is
a subset of the chunk's produced shards containing at least `data_shards`
of them, and the external coder meets its contract on this instance, the
chunk reconstruction reaches the AEAD decryption of exactly the original
`nonce || ciphertext` payload, under whatever key the caller derived. -/
theorem reconstructChunk_decrypt (P : Prims) (key₂ : List Nat) (nonce ct : List Nat)
    (c : Nat) (S : List Shard) (d p : Nat)
    (hd : 2 ≤ d)
    (hn : nonce.length = 12)
    (hgroup : (S.filter (fun s => s.chunkIndex == c)).Sublist
      (mkChunkShards P d p c (12 + ct.length) (P.rsEncode d p (splitPad (nonce ++ ct) d))))
    (hcover : d ≤ (S.filter (fun s => s.chunkIndex == c)).length)
    (hshape : (P.rsEncode d p (splitPad (nonce ++ ct) d)).take d = splitPad (nonce ++ ct) d)
    (hrec : ∀ slots, fillSlots P (S.filter (fun s => s.chunkIndex == c))
        (List.replicate (d + p) none) = .ok slots →
      P.rsReconstruct d p slots =
        some ((P.rsEncode d p (splitPad (nonce ++ ct) d)).map some)) :
    reconstructChunk P key₂ (S.filter (fun s => s.chunkIndex == c)) =
      match P.aeadDec key₂ nonce ct with
      | some plain => .ok plain
      | none => .error .decrypt := by
  cases hg : S.filter (fun s => s.chunkIndex == c) with
  | nil =>
    rw [hg] at hcover
    simp only [List.length_nil] at hcover
    omega
  | cons first rest =>
    rw [hg] at hgroup hcover hrec
    have hfmem : first ∈ mkChunkShards P d p c (12 + ct.length)
        (P.rsEncode d p (splitPad (nonce ++ ct) d)) :=
      hgroup.subset (List.mem_cons_self first rest)
    obtain ⟨_, hfd, hfp, hfpl, _⟩ := mkChunkShards_mem P d p c _ _ first hfmem
    rw [reconstructChunk_cons]
    rw [hfd, hfp, hfpl]
    rw [if_neg (by omega : ¬ (first :: rest).length < d)]
    have hcids : ∀ s ∈ first :: rest, P.sha256hex s.bytes = s.cid := by
      intro s hs
      have := (mkChunkShards_mem P d p c _ _ s (hgroup.subset hs)).2.2.2.2
      exact this.symm
    obtain ⟨slots, hfs⟩ := fillSlots_ok P (first :: rest) (List.replicate (d + p) none) hcids
    have htake : ((P.rsEncode d p (splitPad (nonce ++ ct) d)).map some).take d =
        (splitPad (nonce ++ ct) d).map some := by
      rw [← List.map_take, hshape]
    simp only [hfs, hrec slots hfs, htake, extractData_map_some]
    have hpl : 12 + ct.length = (nonce ++ ct).length := by
      rw [List.length_append, hn]
    rw [hpl, splitPad_flatten_take (nonce ++ ct) d (by omega)]
    rw [if_neg (by rw [List.length_append, hn]; omega : ¬ (nonce ++ ct).length < 12)]
    have htk : (nonce ++ ct).take 12 = nonce := by
      rw [← hn]
      exact List.take_left nonce ct
    have hdr : (nonce ++ ct).drop 12 = ct := by
      rw [← hn]
      exact List.drop_left nonce ct
    rw [htk, hdr]

theorem reconstructGroups_range (P : Prims) (key : List Nat) (S : List Shard) :
    ∀ (cs : List (List Nat)) (n : Nat),
    (∀ j ch, cs.get? j = some ch →
      reconstructChunk P key (S.filter (fun s => s.chunkIndex == n + j)) = .ok ch) →
    reconstructGroups P key S (List.range' n cs.length) = .ok cs.flatten := by
  intro cs
  induction cs with
  | nil => intro n _; rfl
  | cons ch cs ih =>
    intro n hch
    rw [show (ch :: cs).length = cs.length + 1 from rfl]
    rw [show List.range' n (cs.length + 1) = n :: List.range' (n + 1) cs.length from rfl]
    unfold reconstructGroups
    have h0 := hch 0 ch rfl
    rw [Nat.add_zero] at h0
    rw [h0]
    have hrest := ih (n + 1) (fun j ch2 hj => by
      have := hch (j + 1) ch2 hj
      rw [show n + (j + 1) = n + 1 + j by omega] at this
      exact this)
    rw [hrest]
    rfl

theorem process_bytes_ok (P : Prims) (nr : Nat → List Nat) (salt : String)
    (input : List Nat) (password : String) (cfg : PipelineConfig) (out : PipelineOutput)
    (hproc : process_bytes P nr salt input password cfg = .ok out) :
    cfg.chunkSize ≠ 0 ∧ 2 ≤ cfg.dataShards ∧ 1 ≤ cfg.parityShards ∧
      out.salt = salt ∧ out.chunkCount = (listChunks input cfg.chunkSize).length ∧
      buildShards P (P.deriveKey password salt) nr cfg.dataShards cfg.parityShards
        (listChunks input cfg.chunkSize).enum = .ok out.shards := by
  unfold process_bytes at hproc
  by_cases h1 : cfg.chunkSize = 0
  · rw [if_pos h1] at hproc
    exact Except.noConfusion hproc
  · rw [if_neg h1] at hproc
    by_cases h2 : cfg.dataShards < 2
    · rw [if_pos h2] at hproc
      exact Except.noConfusion hproc
    · rw [if_neg h2] at hproc
      by_cases h3 : cfg.parityShards < 1
      · rw [if_pos h3] at hproc
        exact Except.noConfusion hproc
      · rw [if_neg h3] at hproc
        cases hb : buildShards P (P.deriveKey password salt) nr cfg.dataShards
            cfg.parityShards (listChunks input cfg.chunkSize).enum with
        | error e => rw [hb] at hproc; exact Except.noConfusion hproc
        | ok res =>
          rw [hb] at hproc
          have hout : out = PipelineOutput.mk salt res (merkle_root P (res.map Shard.cid))
              input.length (listChunks input cfg.chunkSize).length :=
            (Except.ok.inj hproc).symm
          subst hout
          exact ⟨h1, by omega, by omega, rfl, rfl, rfl⟩

/-- C1: for every input, password and valid configuration, if `S` is a
subset of the shards produced by `process_bytes` containing, for every
chunk, at least `data_shards` of that chunk's shards, then
`reconstruct_bytes` on `S` with the same password and the recorded salt
returns exactly the input bytes.  The nonces are 12 bytes, the generated
salt is valid base64, and the external AES-GCM and Reed-Solomon crates
meet their contracts at the instances the pipeline uses (hypotheses
`hshape`, `hrec`, `hdec`). -/
theorem process_reconstruct_roundtrip (P : Prims) (nr : Nat → List Nat) (salt : String)
    (input : List Nat) (password : String) (cfg : PipelineConfig) (out : PipelineOutput)
    (S : List Shard)
    (hproc : process_bytes P nr salt input password cfg = .ok out)
    (hsalt : P.saltDecodeOk salt = true)
    (hnonce : ∀ i, i < out.chunkCount → (nr i).length = 12)
    (hsub : S.Sublist out.shards)
    (hcover : ∀ c, c < out.chunkCount →
      cfg.dataShards ≤ (S.filter (fun s => s.chunkIndex == c)).length)
    (hshape : ∀ i ch ct, (listChunks input cfg.chunkSize).get? i = some ch →
      P.aeadEnc (P.deriveKey password salt) (nr i) ch = some ct →
      (P.rsEncode cfg.dataShards cfg.parityShards
        (splitPad (nr i ++ ct) cfg.dataShards)).take cfg.dataShards =
        splitPad (nr i ++ ct) cfg.dataShards)
    (hrec : ∀ i ch ct slots, (listChunks input cfg.chunkSize).get? i = some ch →
      P.aeadEnc (P.deriveKey password salt) (nr i) ch = some ct →
      fillSlots P (S.filter (fun s => s.chunkIndex == i))
        (List.replicate (cfg.dataShards + cfg.parityShards) none) = .ok slots →
      P.rsReconstruct cfg.dataShards cfg.parityShards slots =
        some ((P.rsEncode cfg.dataShards cfg.parityShards
          (splitPad (nr i ++ ct) cfg.dataShards)).map some))
    (hdec : ∀ i ch ct, (listChunks input cfg.chunkSize).get? i = some ch →
      P.aeadEnc (P.deriveKey password salt) (nr i) ch = some ct →
      P.aeadDec (P.deriveKey password salt) (nr i) ct = some ch) :
    reconstruct_bytes P S password salt = .ok input := by
  obtain ⟨hk0, hd2, hp1, _, hcc, hbuild⟩ :=
    process_bytes_ok P nr salt input password cfg out hproc
  obtain ⟨hbounds, hper⟩ := buildShards_filter P (P.deriveKey password salt) nr
    cfg.dataShards cfg.parityShards (listChunks input cfg.chunkSize) 0 out.shards hbuild
  simp only [Nat.zero_add] at hbounds hper
  by_cases hcc0 : (listChunks input cfg.chunkSize).length = 0
  · have hchunks : listChunks input cfg.chunkSize = [] := List.length_eq_zero.mp hcc0
    have hinput : input = [] :=
      (listChunks_nil_iff input cfg.chunkSize (by omega)).mp hchunks
    have hres : out.shards = [] := by
      rw [hchunks] at hbuild
      have h2 : Except.ok ([] : List Shard) =
          (Except.ok out.shards : Except PipeError (List Shard)) := hbuild
      exact (Except.ok.inj h2).symm
    have hS : S = [] := List.sublist_nil.mp (hres ▸ hsub)
    rw [reconstruct_bytes, hS, hinput]
    rfl
  · have hcc1 : 0 < (listChunks input cfg.chunkSize).length := by omega
    have hcov0 := hcover 0 (by rw [hcc]; omega)
    have hSne : ¬ (S.isEmpty = true) := by
      intro h
      rw [List.isEmpty_iff] at h
      rw [h] at hcov0
      simp at hcov0
      omega
    unfold reconstruct_bytes
    rw [if_neg hSne, if_neg (not_not_intro hsalt)]
    have hbound : ∀ s ∈ S, s.chunkIndex < (listChunks input cfg.chunkSize).length :=
      fun s hs => (hbounds s (hsub.subset hs)).2
    have hpresent : ∀ c, c < (listChunks input cfg.chunkSize).length →
        (S.any (fun s => s.chunkIndex == c)) = true := by
      intro c hc
      have hle := hcover c (by rw [hcc]; exact hc)
      cases hf : S.filter (fun s => s.chunkIndex == c) with
      | nil =>
        rw [hf] at hle
        simp at hle
        omega
      | cons x xs =>
        have hx : x ∈ S.filter (fun s => s.chunkIndex == c) :=
          hf ▸ List.mem_cons_self x xs
        rw [List.mem_filter] at hx
        rw [List.any_eq_true]
        exact ⟨x, hx.1, hx.2⟩
    rw [groupKeys_eq_range S (listChunks input cfg.chunkSize).length hcc1 hbound hpresent]
    rw [List.range_eq_range']
    rw [reconstructGroups_range P (P.deriveKey password salt) S
      (listChunks input cfg.chunkSize) 0 ?_]
    · rw [listChunks_flatten input cfg.chunkSize (by omega)]
    · intro j ch hj
      simp only [Nat.zero_add]
      obtain ⟨ct, hct, hfil⟩ := hper j ch hj
      obtain ⟨hjlt, _⟩ := List.get?_eq_some.mp hj
      have happ := reconstructChunk_decrypt P (P.deriveKey password salt) (nr j) ct j S
        cfg.dataShards cfg.parityShards hd2
        (hnonce j (by rw [hcc]; exact hjlt))
        (hfil ▸ hsub.filter (fun s => s.chunkIndex == j))
        (hcover j (by rw [hcc]; exact hjlt))
        (hshape j ch ct hj hct)
        (hrec j ch ct · hj hct)
      rw [happ, hdec j ch ct hj hct]

/-- C2: with a different password whose derived key fails AES-GCM
authentication on the first chunk, `reconstruct_bytes` over the full
produced shard set returns the `Decrypt` error (and hence never silently
returns wrong bytes). -/
theorem wrong_password_decrypt_error (P : Prims) (nr : Nat → List Nat) (salt : String)
    (input : List Nat) (password passwordX : String) (cfg : PipelineConfig)
    (out : PipelineOutput)
    (hproc : process_bytes P nr salt input password cfg = .ok out)
    (hne : input ≠ [])
    (hsalt : P.saltDecodeOk salt = true)
    (hnonce : (nr 0).length = 12)
    (hshape : ∀ ch ct, (listChunks input cfg.chunkSize).get? 0 = some ch →
      P.aeadEnc (P.deriveKey password salt) (nr 0) ch = some ct →
      (P.rsEncode cfg.dataShards cfg.parityShards
        (splitPad (nr 0 ++ ct) cfg.dataShards)).take cfg.dataShards =
        splitPad (nr 0 ++ ct) cfg.dataShards)
    (hrec : ∀ ch ct slots, (listChunks input cfg.chunkSize).get? 0 = some ch →
      P.aeadEnc (P.deriveKey password salt) (nr 0) ch = some ct →
      fillSlots P (out.shards.filter (fun s => s.chunkIndex == 0))
        (List.replicate (cfg.dataShards + cfg.parityShards) none) = .ok slots →
      P.rsReconstruct cfg.dataShards cfg.parityShards slots =
        some ((P.rsEncode cfg.dataShards cfg.parityShards
          (splitPad (nr 0 ++ ct) cfg.dataShards)).map some))
    (hdecfail : ∀ ch ct, (listChunks input cfg.chunkSize).get? 0 = some ch →
      P.aeadEnc (P.deriveKey password salt) (nr 0) ch = some ct →
      P.aeadDec (P.deriveKey passwordX salt) (nr 0) ct = none) :
    reconstruct_bytes P out.shards passwordX salt = .error .decrypt := by
  obtain ⟨hk0, hd2, hp1, _, hcc, hbuild⟩ :=
    process_bytes_ok P nr salt input password cfg out hproc
  obtain ⟨hbounds, hper⟩ := buildShards_filter P (P.deriveKey password salt) nr
    cfg.dataShards cfg.parityShards (listChunks input cfg.chunkSize) 0 out.shards hbuild
  simp only [Nat.zero_add] at hbounds hper
  have hcc1 : 0 < (listChunks input cfg.chunkSize).length := by
    cases hch : listChunks input cfg.chunkSize with
    | nil => exact absurd ((listChunks_nil_iff input cfg.chunkSize (by omega)).mp hch) hne
    | cons a l => simp
  obtain ⟨ch0, hch0⟩ : ∃ ch0, (listChunks input cfg.chunkSize).get? 0 = some ch0 := by
    cases hch : listChunks input cfg.chunkSize with
    | nil => rw [hch] at hcc1; simp at hcc1
    | cons a l => exact ⟨a, rfl⟩
  obtain ⟨ct, hct, hfil⟩ := hper 0 ch0 hch0
  have hsplen : (splitPad (nr 0 ++ ct) cfg.dataShards).length = cfg.dataShards := by
    unfold splitPad
    rw [List.length_map, List.length_range]
  have hFlen : cfg.dataShards ≤ (P.rsEncode cfg.dataShards cfg.parityShards
      (splitPad (nr 0 ++ ct) cfg.dataShards)).length := by
    have h1 := congrArg List.length (hshape ch0 ct hch0 hct)
    rw [List.length_take, hsplen] at h1
    omega
  have hglen : (out.shards.filter (fun s => s.chunkIndex == 0)).length =
      (P.rsEncode cfg.dataShards cfg.parityShards
        (splitPad (nr 0 ++ ct) cfg.dataShards)).length := by
    rw [hfil]
    unfold mkChunkShards
    rw [List.length_map, List.enum_length]
  have hcov : cfg.dataShards ≤ (out.shards.filter (fun s => s.chunkIndex == 0)).length := by
    omega
  have hOne : ¬ (out.shards.isEmpty = true) := by
    intro h
    rw [List.isEmpty_iff] at h
    rw [h] at hglen
    simp at hglen
    omega
  unfold reconstruct_bytes
  rw [if_neg hOne, if_neg (not_not_intro hsalt)]
  have hhead : ∃ rest, groupKeys out.shards = 0 :: rest := by
    unfold groupKeys
    rw [List.range_succ_eq_map, List.filter_cons]
    have h0 : (out.shards.any (fun s => s.chunkIndex == 0)) = true := by
      cases hf : out.shards.filter (fun s => s.chunkIndex == 0) with
      | nil => rw [hf] at hglen; simp at hglen; omega
      | cons x xs =>
        have hx : x ∈ out.shards.filter (fun s => s.chunkIndex == 0) :=
          hf ▸ List.mem_cons_self x xs
        rw [List.mem_filter] at hx
        rw [List.any_eq_true]
        exact ⟨x, hx.1, hx.2⟩
    rw [if_pos (by simpa using h0)]
    exact ⟨_, rfl⟩
  obtain ⟨rest, hrest⟩ := hhead
  rw [hrest]
  unfold reconstructGroups
  have happ := reconstructChunk_decrypt P (P.deriveKey passwordX salt) (nr 0) ct 0
    out.shards cfg.dataShards cfg.parityShards hd2 hnonce
    (hfil ▸ List.Sublist.refl _)
    hcov
    (hshape ch0 ct hch0 hct)
    (hrec ch0 ct · hch0 hct)
  rw [happ, hdecfail ch0 ct hch0 hct]

/-- Concrete pipeline input for the round-trip witnesses. -/
def wInput : List Nat := [1, 2, 3]

/-- Concrete 12-byte nonce source. -/
def wNr : Nat → List Nat := fun _ => [0, 1, 2, 3, 4, 5, 6, 7, 8, 9, 10, 11]

/-- Concrete configuration: one 4-byte chunk, 2 data and 1 parity shard. -/
def wCfg : PipelineConfig := ⟨4, 2, 1⟩

/-- The pipeline output on the witness input. -/
def wOut : PipelineOutput :=
  match process_bytes toyPrims wNr "s" wInput "pw" wCfg with
  | .ok o => o
  | .error _ => ⟨"", [], "", 0, 0⟩

/-- The toy ciphertext of the witness chunk under the key derived from
`"pw"` and `"s"`. -/
def wCT : List Nat := [4, 112, 119, 35, 115, 1, 2, 3]

/-- C1 witness: on the concrete input the full shard set reconstructs the
input bytes. -/
theorem process_reconstruct_roundtrip_witness :
    reconstruct_bytes toyPrims wOut.shards "pw" "s" = .ok wInput := by
  apply process_reconstruct_roundtrip toyPrims wNr "s" wInput "pw" wCfg wOut wOut.shards
  · rfl
  · decide
  · intro i _
    rfl
  · exact List.Sublist.refl _
  · intro c hc
    have hcc : wOut.chunkCount = 1 := by decide
    rw [hcc] at hc
    have hc0 : c = 0 := by omega
    subst hc0
    decide
  · intro i ch ct hch hct
    have hi : i = 0 := by
      obtain ⟨hlt, _⟩ := List.get?_eq_some.mp hch
      have hlen : (listChunks wInput wCfg.chunkSize).length = 1 := by decide
      omega
    subst hi
    have hch2 : ch = [1, 2, 3] := by
      have h0 : (listChunks wInput wCfg.chunkSize).get? 0 = some [1, 2, 3] := by decide
      exact (Option.some.inj (hch.symm.trans h0))
    subst hch2
    have hct2 : ct = wCT := by
      have h0 : toyPrims.aeadEnc (toyPrims.deriveKey "pw" "s") (wNr 0) [1, 2, 3] =
          some wCT := by decide
      exact (Option.some.inj (hct.symm.trans h0))
    subst hct2
    decide
  · intro i ch ct slots hch hct hfs
    have hi : i = 0 := by
      obtain ⟨hlt, _⟩ := List.get?_eq_some.mp hch
      have hlen : (listChunks wInput wCfg.chunkSize).length = 1 := by decide
      omega
    subst hi
    have hch2 : ch = [1, 2, 3] := by
      have h0 : (listChunks wInput wCfg.chunkSize).get? 0 = some [1, 2, 3] := by decide
      exact (Option.some.inj (hch.symm.trans h0))
    subst hch2
    have hct2 : ct = wCT := by
      have h0 : toyPrims.aeadEnc (toyPrims.deriveKey "pw" "s") (wNr 0) [1, 2, 3] =
          some wCT := by decide
      exact (Option.some.inj (hct.symm.trans h0))
    subst hct2
    have h0 : fillSlots toyPrims (wOut.shards.filter (fun s => s.chunkIndex == 0))
        (List.replicate (wCfg.dataShards + wCfg.parityShards) none) =
        .ok ((toyPrims.rsEncode wCfg.dataShards wCfg.parityShards
          (splitPad (wNr 0 ++ wCT) wCfg.dataShards)).map some) := by rfl
    have hslots := Except.ok.inj (h0.symm.trans hfs)
    rw [← hslots]
    decide
  · intro i ch ct hch hct
    have hi : i = 0 := by
      obtain ⟨hlt, _⟩ := List.get?_eq_some.mp hch
      have hlen : (listChunks wInput wCfg.chunkSize).length = 1 := by decide
      omega
    subst hi
    have hch2 : ch = [1, 2, 3] := by
      have h0 : (listChunks wInput wCfg.chunkSize).get? 0 = some [1, 2, 3] := by decide
      exact (Option.some.inj (hch.symm.trans h0))
    subst hch2
    have hct2 : ct = wCT := by
      have h0 : toyPrims.aeadEnc (toyPrims.deriveKey "pw" "s") (wNr 0) [1, 2, 3] =
          some wCT := by decide
      exact (Option.some.inj (hct.symm.trans h0))
    subst hct2
    decide

/-- C2 witness: on the concrete input, reconstruction under the password
`"px"` fails with the `Decrypt` error. -/
theorem wrong_password_decrypt_error_witness :
    reconstruct_bytes toyPrims wOut.shards "px" "s" = .error .decrypt := by
  apply wrong_password_decrypt_error toyPrims wNr "s" wInput "pw" "px" wCfg wOut
  · rfl
  · decide
  · decide
  · rfl
  · intro ch ct hch hct
    have hch2 : ch = [1, 2, 3] := by
      have h0 : (listChunks wInput wCfg.chunkSize).get? 0 = some [1, 2, 3] := by decide
      exact (Option.some.inj (hch.symm.trans h0))
    subst hch2
    have hct2 : ct = wCT := by
      have h0 : toyPrims.aeadEnc (toyPrims.deriveKey "pw" "s") (wNr 0) [1, 2, 3] =
          some wCT := by decide
      exact (Option.some.inj (hct.symm.trans h0))
    subst hct2
    decide
  · intro ch ct slots hch hct hfs
    have hch2 : ch = [1, 2, 3] := by
      have h0 : (listChunks wInput wCfg.chunkSize).get? 0 = some [1, 2, 3] := by decide
      exact (Option.some.inj (hch.symm.trans h0))
    subst hch2
    have hct2 : ct = wCT := by
      have h0 : toyPrims.aeadEnc (toyPrims.deriveKey "pw" "s") (wNr 0) [1, 2, 3] =
          some wCT := by decide
      exact (Option.some.inj (hct.symm.trans h0))
    subst hct2
    have h0 : fillSlots toyPrims (wOut.shards.filter (fun s => s.chunkIndex == 0))
        (List.replicate (wCfg.dataShards + wCfg.parityShards) none) =
        .ok ((toyPrims.rsEncode wCfg.dataShards wCfg.parityShards
          (splitPad (wNr 0 ++ wCT) wCfg.dataShards)).map some) := by rfl
    have hslots := Except.ok.inj (h0.symm.trans hfs)
    rw [← hslots]
    decide
  · intro ch ct hch hct
    have hch2 : ch = [1, 2, 3] := by
      have h0 : (listChunks wInput wCfg.chunkSize).get? 0 = some [1, 2, 3] := by decide
      exact (Option.some.inj (hch.symm.trans h0))
    subst hch2
    have hct2 : ct = wCT := by
      have h0 : toyPrims.aeadEnc (toyPrims.deriveKey "pw" "s") (wNr 0) [1, 2, 3] =
          some wCT := by decide
      exact (Option.some.inj (hct.symm.trans h0))
    subst hct2
    decide

end NeuroStore
